import Mathlib

/-!
Verification development for `db_converter/db_converter.py`, a one-shot
MySQL-dump rewriter: it re-extracts table facts with regular expressions
(`get_name`, `get_primary_key`, `get_fields`, `get_foreign_keys`), rewrites
each `CREATE TABLE` body (`get_converted_body`), emits `ALTER TABLE`
statements (`get_alters`), and drives the whole-file conversion
(`convert_dump_to_innodb`).

The embedding works over `List Char`.  Each Python regex used by the source
is a fixed pattern with lazy quantifiers, so its search is modelled by an
explicit left-to-right scan; Python `str.replace` is modelled by
`replaceAll`; exceptions (`KeyError`, `ValueError`, failed `re.search`) are
modelled by `Option`.  Functions whose recursion is not structural take a
fuel argument (always instantiated with the input length) so that every
definition evaluates inside the kernel; fuel-irrelevance lemmas recover the
natural recursion equations.  Python's `set` has unspecified iteration
order; `pyListSet` fixes first-occurrence order, and all claims about field
sets are stated so that only membership matters.  File I/O is not modelled:
`convert_core` maps the input text to the output text that
`convert_dump_to_innodb` writes.
-/

set_option maxRecDepth 40000

/-- Index of the first occurrence of character `c` (Python `str.index`,
returning `none` instead of raising `ValueError`). -/
def findChar (c : Char) : List Char → Option Nat
  | [] => none
  | d :: rest => if d = c then some 0 else (findChar c rest).map (· + 1)

/-- One step of the lazy `.*?` scan of `re.search(r"CREATE TABLE `.*?`", body, re.S)`:
distance to the first backtick (with `re.S` any character, newlines included,
may be consumed before it). -/
def nameClose : List Char → Option Nat
  | [] => none
  | c :: rest => if c = '`' then some 0 else (nameClose rest).map (· + 1)

/-- The full match of `re.search(r"CREATE TABLE `.*?`", body, re.S)`:
try every start position left to right; at a position where the literal
`CREATE TABLE \x60` matches, lazily extend to the first closing backtick. -/
def nameSearch : List Char → Option (List Char)
  | [] => none
  | c :: rest =>
    if ("CREATE TABLE `".data).isPrefixOf (c :: rest) then
      match nameClose ((c :: rest).drop 14) with
      | some j => some ((c :: rest).take (14 + j + 1))
      | none => nameSearch rest
    else nameSearch rest

/-- One step of the lazy scan of `re.search(r"PRIMARY KEY \(`.*?`\)", body)`:
distance to the first occurrence of `` `) ``, consuming only non-newline
characters (no `re.S` here, so `.` does not match a newline). -/
def pkClose : List Char → Option Nat
  | [] => none
  | c :: rest =>
    if ("`)".data).isPrefixOf (c :: rest) then some 0
    else if c = '\n' then none
    else (pkClose rest).map (· + 1)

/-- The full match of `re.search(r"PRIMARY KEY \(`.*?`\)", body)`. -/
def pkSearch : List Char → Option (List Char)
  | [] => none
  | c :: rest =>
    if ("PRIMARY KEY (`".data).isPrefixOf (c :: rest) then
      match pkClose ((c :: rest).drop 14) with
      | some j => some ((c :: rest).take (14 + j + 2))
      | none => pkSearch rest
    else pkSearch rest

/-- One step of the lazy scan of `re.findall(r"`.*?`", s)`: distance to the
closing backtick, consuming only non-newline characters. -/
def tickClose : List Char → Option Nat
  | [] => none
  | c :: rest => if c = '`' then some 0 else if c = '\n' then none else (tickClose rest).map (· + 1)

/-- Fueled worker for `findTicks`.  The fuel only serves to make the
recursion structural; it is always at least the input length. -/
def findTicksFuel : Nat → List Char → List (List Char)
  | 0, _ => []
  | _ + 1, [] => []
  | fuel + 1, c :: rest =>
    if c = '`' then
      match tickClose rest with
      | some j => (c :: rest.take (j + 1)) :: findTicksFuel fuel (rest.drop (j + 1))
      | none => findTicksFuel fuel rest
    else findTicksFuel fuel rest

/-- All matches of `re.findall(r"`.*?`", s)`, left to right, non-overlapping. -/
def findTicks (s : List Char) : List (List Char) := findTicksFuel s.length s

/-- Fueled worker for `replaceAll`. -/
def replaceAllFuel (p r : List Char) : Nat → List Char → List Char
  | 0, s => s
  | _ + 1, [] => []
  | fuel + 1, c :: rest =>
    if p.isPrefixOf (c :: rest) && !p.isEmpty then
      r ++ replaceAllFuel p r fuel ((c :: rest).drop p.length)
    else
      c :: replaceAllFuel p r fuel rest

/-- Python `s.replace(p, r)`: scan the original string left to right,
replacing non-overlapping occurrences of `p` by `r` and resuming after the
matched span.  Every pattern the program uses is non-empty. -/
def replaceAll (s p r : List Char) : List Char := replaceAllFuel p r s.length s

/-- Python `s.split(",")` (only used on non-empty match content). -/
def splitComma : List Char → List (List Char)
  | [] => [[]]
  | c :: rest =>
    if c = ',' then [] :: splitComma rest
    else
      match splitComma rest with
      | [] => [[c]]
      | h :: t => (c :: h) :: t

/-- Model of Python `list(set(l))`: deduplicate.  CPython's iteration order
over a `set` is unspecified; the embedding fixes first-occurrence order.
All claims involving field lists only depend on membership. -/
def pyListSet (l : List (List Char)) : List (List Char) :=
  l.foldl (fun acc x => if x ∈ acc then acc else acc ++ [x]) []

/-- `occursB p s` holds when `p` occurs as a contiguous substring of `s`. -/
def occursB (p : List Char) : List Char → Bool
  | [] => p.isPrefixOf ([] : List Char)
  | c :: rest => p.isPrefixOf (c :: rest) || occursB p rest

/-- Run `f` over a list, failing as soon as `f` fails: the shape of every
Python loop in the source whose body may raise `KeyError`. -/
def optMap {α β : Type} (f : α → Option β) : List α → Option (List β)
  | [] => some []
  | a :: rest =>
    match f a, optMap f rest with
    | some v, some vs => some (v :: vs)
    | _, _ => none

/-- Python `dict` lookup (`d[k]`): value of the entry whose key equals `k`,
`none` modelling `KeyError`.  Keys are unique by construction of `dictSet`. -/
def dictLookup {α β : Type} [DecidableEq α] : List (α × β) → α → Option β
  | [], _ => none
  | p :: rest, k => if p.1 = k then some p.2 else dictLookup rest k

/-- Python `dict` assignment `d[k] = v`: overwrite in place when the key is
present (keeping its original position), append otherwise. -/
def dictSet {α β : Type} [DecidableEq α] (d : List (α × β)) (k : α) (v : β) : List (α × β) :=
  if d.any (fun p => decide (p.1 = k)) then d.map (fun p => if p.1 = k then (k, v) else p)
  else d ++ [(k, v)]

/-- Python `"\n".join(l)`. -/
def joinNL : List (List Char) → List Char
  | [] => []
  | [a] => a
  | a :: rest => a ++ '\n' :: joinNL rest

/-- The ASCII apostrophe, written by code point to keep the source file free
of stray quote characters. -/
def apos : Char := Char.ofNat 39

/-- Replacement text of the date fix: `date NOT NULL`. -/
def dateGood : List Char := "date NOT NULL".data

/-- The part of the malformed date literal that follows `date NOT NULL`. -/
def dateTail : List Char := " DEFAULT ".data ++ [apos] ++ "0000-00-00".data ++ [apos]

/-- The malformed date literal the converter removes:
`date NOT NULL DEFAULT '0000-00-00'`. -/
def dateBad : List Char := dateGood ++ dateTail

/-- Source storage-engine marker `ENGINE=MyISAM`. -/
def engMyISAM : List Char := "ENGINE=MyISAM".data

/-- Target storage-engine marker `ENGINE=InnoDB`. -/
def engInnoDB : List Char := "ENGINE=InnoDB".data

/-- The footer template `"\n) ENGINE"` used by `get_converted_body` to locate
the end of the creation query. -/
def footerS : List Char := "\n) ENGINE".data

/-- `Table.get_name`: search `CREATE TABLE \x60.*?\x60` (with `re.S`), then
strip `CREATE TABLE ` and all backticks; `none` models the silent `except`
returning `None`. -/
def get_name (body : List Char) : Option (List Char) :=
  (nameSearch body).map (fun m => replaceAll (replaceAll m ("CREATE TABLE ".data) []) ['`'] [])

/-- Rendering of a possibly absent table name inside a Python f-string:
`None` prints as the four characters `None`. -/
def pyName (body : List Char) : List Char := (get_name body).getD ("None".data)

/-- Result type of `Table.get_primary_key`: a single column name or, when the
match content contains a comma, the list obtained by splitting on commas. -/
inductive PyKey where
  | single : List Char → PyKey
  | multi : List (List Char) → PyKey
deriving DecidableEq

/-- `Table.get_primary_key`: search `PRIMARY KEY \(`.*?`\)`, strip
`PRIMARY KEY (`, every `)` and every backtick, then split on `,` when one is
present; `none` models the silent `except` returning `None`. -/
def get_primary_key (body : List Char) : Option PyKey :=
  (pkSearch body).map (fun m =>
    let s := replaceAll (replaceAll (replaceAll m ("PRIMARY KEY (".data) []) [')'] []) ['`'] []
    if ',' ∈ s then PyKey.multi (splitComma s) else PyKey.single s)

/-- Strip the backticks off one `findTicks` match. -/
def stripTicks (m : List Char) : List Char := replaceAll m ['`'] []

/-- `Table.get_fields`: from the first `(` on, collect every backtick-quoted
token, strip the backticks, deduplicate.  `none` models the `ValueError`
raised by `self.body.index("(")` when there is no parenthesis. -/
def get_fields (body : List Char) : Option (List (List Char)) :=
  (findChar '(' body).map (fun i => pyListSet ((findTicks (body.drop i)).map stripTicks))

/-- The comparison `k != self.get_primary_key()` of `get_foreign_keys`:
a string differs from `None` and from any list, so only a single-column
primary key can ever exclude a candidate. -/
def pkNeq (k : List Char) (pk : Option PyKey) : Bool :=
  match pk with
  | some (PyKey.single s) => k != s
  | _ => true

/-- The two filters of `Table.get_foreign_keys` applied to a field list. -/
def fkOf (fields : List (List Char)) (pk : Option PyKey) : List (List Char) :=
  (fields.filter (fun x => ("Id".data).isSuffixOf x)).filter (fun k => pkNeq k pk)

/-- `Table.get_foreign_keys`: fields ending in `Id`, minus any entry equal to
the value of `get_primary_key()`. -/
def get_foreign_keys (body : List Char) : Option (List (List Char)) :=
  (get_fields body).map (fun fs => fkOf fs (get_primary_key body))

/-- The f-string of `Table.get_alters`:
`ALTER TABLE {n} ADD FOREIGN KEY ({k}) REFERENCES {o}({k});`. -/
def mkAlter (n k o : List Char) : List Char :=
  "ALTER TABLE ".data ++ n ++ " ADD FOREIGN KEY (".data ++ k ++ ") REFERENCES ".data
    ++ o ++ "(".data ++ k ++ ");".data

/-- `Table.get_alters(other_tables)`: one statement per foreign key; a column
missing from `other_tables` raises `KeyError` (modelled by `none`).  An empty
foreign-key list yields the empty list, as in the source's early return. -/
def get_alters (body : List Char) (owners : List (List Char × List Char)) :
    Option (List (List Char)) :=
  match get_foreign_keys body with
  | none => none
  | some fks => optMap (fun k => (dictLookup owners k).map (fun o => mkAlter (pyName body) k o)) fks

/-- One clause of the `foreign_section` built by `get_converted_body`:
`,\nFOREIGN KEY ({key}) REFERENCES {owner}({key})`. -/
def fkClause (k o : List Char) : List Char :=
  ",\nFOREIGN KEY (".data ++ k ++ ") REFERENCES ".data ++ o ++ "(".data ++ k ++ ")".data

/-- `Table.get_converted_body(other_tables)`: switch the engine marker, and
when there are foreign keys splice their clauses in front of every occurrence
of the footer template `"\n) ENGINE"`. -/
def get_converted_body (body : List Char) (owners : List (List Char × List Char)) :
    Option (List Char) :=
  let temp := replaceAll body engMyISAM engInnoDB
  match get_foreign_keys body with
  | none => none
  | some fks =>
    if fks.isEmpty then some temp
    else
      (optMap (fun k => (dictLookup owners k).map (fun o => fkClause k o)) fks).map
        (fun secs => replaceAll temp footerS (secs.flatten ++ footerS))

/-- Fueled worker for `findCreates`. -/
def findCreatesFuel : Nat → List Char → List (List Char)
  | 0, _ => []
  | _ + 1, [] => []
  | fuel + 1, c :: rest =>
    if ("CREATE TABLE".data).isPrefixOf (c :: rest) then
      match findChar ';' ((c :: rest).drop 12) with
      | some j => ((c :: rest).take (12 + j + 1)) :: findCreatesFuel fuel ((c :: rest).drop (12 + j + 1))
      | none => findCreatesFuel fuel rest
    else findCreatesFuel fuel rest

/-- `re.findall(r"CREATE TABLE.*?;", sql, re.S)`: every statement from a
`CREATE TABLE` keyword to the next semicolon, newlines allowed. -/
def findCreates (s : List Char) : List (List Char) := findCreatesFuel s.length s

/-- The `db_tables` dict of `convert_dump_to_innodb`: table name (possibly
absent) to table body, later statements overwriting earlier ones. -/
def buildTables (bodies : List (List Char)) : List (Option (List Char) × List Char) :=
  bodies.foldl (fun d b => dictSet d (get_name b) b) []

/-- One step of the `foreign_keys` dict comprehension: only tables whose
primary key is a single string contribute, the value being the table name as
it will print inside an f-string. -/
def ownerStep (d : List (List Char × List Char)) (b : List Char) : List (List Char × List Char) :=
  match get_primary_key b with
  | some (PyKey.single k) => dictSet d k (pyName b)
  | _ => d

/-- The `foreign_keys` dict of `convert_dump_to_innodb`: single-column
primary-key name to owning table name. -/
def buildOwners (bodies : List (List Char)) : List (List Char × List Char) :=
  bodies.foldl ownerStep []

/-- The statement `ALTER TABLE \x60{name}\x60 DROP PRIMARY KEY;`. -/
def dropStmt (n : List Char) : List Char :=
  "ALTER TABLE `".data ++ n ++ "` DROP PRIMARY KEY;".data

/-- The statement
`ALTER TABLE \x60{name}\x60 ADD COLUMN \x60id\x60 int(11) PRIMARY KEY AUTO_INCREMENT;`. -/
def addIdStmt (n : List Char) : List Char :=
  "ALTER TABLE `".data ++ n ++ "` ADD COLUMN `id` int(11) PRIMARY KEY AUTO_INCREMENT;".data

/-- The two statements the `only_single_keys` branch appends for a table
whose `get_primary_key()` is a list, and nothing for any other table. -/
def tableCompositeAlters (body : List Char) : List (List Char) :=
  match get_primary_key body with
  | some (PyKey.multi _) => [dropStmt (pyName body), addIdStmt (pyName body)]
  | _ => []

/-- The complete `alters` list of `convert_dump_to_innodb`: concatenated
`get_alters` output over the `db_tables` entries in insertion order, then
(when `only_single_keys`) the composite-key pairs in the same order. -/
def convertAlters (entries : List (Option (List Char) × List Char))
    (owners : List (List Char × List Char)) (onlySingle : Bool) : Option (List (List Char)) :=
  match optMap (fun e => get_alters e.2 owners) entries with
  | none => none
  | some ls =>
    some (ls.flatten ++ (if onlySingle then entries.flatMap (fun e => tableCompositeAlters e.2) else []))

/-- The alteration block `convert_dump_to_innodb` computes for a given input
text. -/
def altersOf (sql : List Char) (onlySingle : Bool) : Option (List (List Char)) :=
  convertAlters (buildTables (findCreates sql)) (buildOwners (findCreates sql)) onlySingle

/-- The two whole-file substitutions applied to the raw input text: the date
fix, then the engine switch. -/
def transformText (sql : List Char) : List Char :=
  replaceAll (replaceAll sql dateBad dateGood) engMyISAM engInnoDB

/-- `convert_dump_to_innodb` as a text transformation: the content written to
the output file (transformed text, three newlines, the alteration block),
or `none` when a `KeyError` aborts the conversion. -/
def convert_core (sql : List Char) (onlySingle : Bool) : Option (List Char) :=
  match altersOf sql onlySingle with
  | none => none
  | some alters => some (transformText sql ++ ['\n', '\n', '\n'] ++ joinNL alters)

/-- Decidable form of "the body contains a match of
`CREATE TABLE \x60.*?\x60`" (the condition under which `get_name` succeeds). -/
def hasNameB : List Char → Bool
  | [] => false
  | c :: rest =>
    (("CREATE TABLE `".data).isPrefixOf (c :: rest) && (nameClose ((c :: rest).drop 14)).isSome)
      || hasNameB rest

/-- Decidable form of "the body contains a match of
`PRIMARY KEY \(`.*?`\)`". -/
def hasPkB : List Char → Bool
  | [] => false
  | c :: rest =>
    (("PRIMARY KEY (`".data).isPrefixOf (c :: rest) && (pkClose ((c :: rest).drop 14)).isSome)
      || hasPkB rest

/-- The trailing text `"\n) ENGINE=MyISAM;"` of a well-formed MyISAM table
statement. -/
def footMy : List Char := "\n) ENGINE=MyISAM;".data

/-- The trailing text `"\n) ENGINE=InnoDB;"` after the engine switch. -/
def footInno : List Char := "\n) ENGINE=InnoDB;".data

/-- No suffix of `q` is aligned with `r`: at every offset into `q`, neither
is the remaining suffix a prefix of `r` nor `r` a prefix of it.  This is the
side condition under which an occurrence of `q` in a `replaceAll` output
cannot overlap an inserted copy of `r`. -/
def NoAlign (q r : List Char) : Prop :=
  ∀ j, j < q.length → (q.drop j).isPrefixOf r = false ∧ r.isPrefixOf (q.drop j) = false

instance (q r : List Char) : Decidable (NoAlign q r) :=
  Nat.decidableBallLT q.length (fun j _ =>
    (q.drop j).isPrefixOf r = false ∧ r.isPrefixOf (q.drop j) = false)

/-- A table body whose footer marker `"\n) ENGINE"` occurs before the first
parenthesis: the spliced foreign-key clauses then land in front of the
column list. -/
def bodyCex6 : List Char := "CREATE TABLE `t`\n) ENGINE `xx` (`aId`)".data

/-- A primary-key-owner mapping resolving the one foreign key of
`bodyCex6`. -/
def ownersCex6 : List (List Char × List Char) := [("aId".data, "t".data)]

/-- The converted body produced for `bodyCex6`. -/
def convCex6 : List Char := (get_converted_body bodyCex6 ownersCex6).getD []

/-- Two tables declaring the same single-column primary key name. -/
def sqlCex7 : List Char :=
  ("CREATE TABLE `a` (`xId` int, PRIMARY KEY (`xId`));"
    ++ "CREATE TABLE `b` (`xId` int, PRIMARY KEY (`xId`));").data

/-- The first statement extracted from `sqlCex7`. -/
def bodyCex7 : List Char := "CREATE TABLE `a` (`xId` int, PRIMARY KEY (`xId`));".data

/-- An input consisting of the malformed date literal immediately followed
by a second copy of its `DEFAULT` part. -/
def sqlCex8 : List Char := dateBad ++ dateTail

/-- The output text `convert` produces for `sqlCex8`. -/
def outCex8 : List Char := (convert_core sqlCex8 true).getD []

/-- A well-formed body prefix (everything before the footer) used to witness
the round-trip theorem. -/
def bW6 : List Char := "CREATE TABLE `w` (`bId` int".data

/-- Owners mapping for the witness body. -/
def ownersW6 : List (List Char × List Char) := [("bId".data, "z".data)]

/-- The converted witness body. -/
def convW6 : List Char := (get_converted_body (bW6 ++ footMy) ownersW6).getD []

/-- A representative single-column-primary-key table statement. -/
def bodyDrv : List Char :=
  ("CREATE TABLE `drivers` (`driverId` int(11) NOT NULL, `teamId` int(11) NOT NULL,\n"
    ++ "PRIMARY KEY (`driverId`)\n) ENGINE=MyISAM;").data

/-- The primary-key owners resolving the foreign keys of `bodyDrv`. -/
def ownersDrv : List (List Char × List Char) :=
  [("driverId".data, "drivers".data), ("teamId".data, "teams".data)]

/-- The field list extracted from `bodyDrv`. -/
def fieldsDrv : List (List Char) := (get_fields bodyDrv).getD []

/-- A representative composite-primary-key table statement. -/
def bodyComp : List Char :=
  ("CREATE TABLE `res` (`raceId` int(11) NOT NULL, `driverId` int(11) NOT NULL,\n"
    ++ "PRIMARY KEY (`raceId`,`driverId`)\n) ENGINE=MyISAM;").data

/-- The field list extracted from `bodyComp`. -/
def fieldsComp : List (List Char) := (get_fields bodyComp).getD []

/-- A one-entry `db_tables` list holding `bodyComp`. -/
def entriesComp : List (Option (List Char) × List Char) := [(get_name bodyComp, bodyComp)]

/-- Owners resolving both foreign-key candidates of `bodyComp`. -/
def ownersComp : List (List Char × List Char) :=
  [("raceId".data, "races".data), ("driverId".data, "drivers".data)]

/-- The per-table `get_alters` lists for `entriesComp`. -/
def baseComp : List (List (List Char)) :=
  (optMap (fun e => get_alters e.2 ownersComp) entriesComp).getD []

/-- A small dump whose conversion succeeds and whose alteration block is
empty, used to witness the date-fix theorem. -/
def sqlW8 : List Char :=
  "CREATE TABLE `t` (`x` int(11) NOT NULL, PRIMARY KEY (`x`)\n) ENGINE=MyISAM;".data

/-- The output text `convert` produces for `sqlW8`. -/
def outW8 : List Char := (convert_core sqlW8 true).getD []

/-! Basic lemmas about `List.isPrefixOf` on `List Char`. -/

theorem ipo_nil (l : List Char) : ([] : List Char).isPrefixOf l = true := by
  cases l <;> rfl

theorem ipo_cons (a b : Char) (as bs : List Char) :
    (a :: as).isPrefixOf (b :: bs) = ((a == b) && as.isPrefixOf bs) := rfl

theorem ipo_cons_nil (a : Char) (as : List Char) :
    (a :: as).isPrefixOf ([] : List Char) = false := rfl

theorem ipo_refl (p : List Char) : p.isPrefixOf p = true := by
  induction p with
  | nil => rfl
  | cons a as ih => simp [ipo_cons, ih]

theorem ipo_mem {p s : List Char} (h : p.isPrefixOf s = true) {c : Char} (hc : c ∈ p) : c ∈ s := by
  induction p generalizing s with
  | nil => simp at hc
  | cons a as ih =>
    cases s with
    | nil => simp [ipo_cons_nil] at h
    | cons b bs =>
      rw [ipo_cons, Bool.and_eq_true, beq_iff_eq] at h
      rcases List.mem_cons.mp hc with rfl | hmem
      · exact h.1 ▸ List.mem_cons_self _ _
      · exact List.mem_cons_of_mem _ (ih h.2 hmem)

theorem ipo_length {p s : List Char} (h : p.isPrefixOf s = true) : p.length ≤ s.length := by
  induction p generalizing s with
  | nil => simp
  | cons a as ih =>
    cases s with
    | nil => simp [ipo_cons_nil] at h
    | cons b bs =>
      rw [ipo_cons, Bool.and_eq_true] at h
      simpa using ih h.2

theorem ipo_take {p s : List Char} (h : p.isPrefixOf s = true) : s.take p.length = p := by
  induction p generalizing s with
  | nil => simp
  | cons a as ih =>
    cases s with
    | nil => simp [ipo_cons_nil] at h
    | cons b bs =>
      rw [ipo_cons, Bool.and_eq_true, beq_iff_eq] at h
      simp [List.take_cons, ih h.2, h.1]

theorem ipo_of_take {p s : List Char} (h : s.take p.length = p) : p.isPrefixOf s = true := by
  induction p generalizing s with
  | nil => simp [ipo_nil]
  | cons a as ih =>
    cases s with
    | nil => simp at h
    | cons b bs =>
      simp only [List.length_cons, List.take_succ_cons, List.cons.injEq] at h
      rw [ipo_cons, Bool.and_eq_true, beq_iff_eq]
      exact ⟨h.1.symm, ih h.2⟩

theorem ipo_append_right {p u : List Char} (t : List Char) (h : p.isPrefixOf u = true) :
    p.isPrefixOf (u ++ t) = true := by
  induction p generalizing u with
  | nil => exact ipo_nil _
  | cons a as ih =>
    cases u with
    | nil => simp [ipo_cons_nil] at h
    | cons b bs =>
      rw [ipo_cons, Bool.and_eq_true] at h
      rw [List.cons_append, ipo_cons, Bool.and_eq_true]
      exact ⟨h.1, ih h.2⟩

theorem ipo_append_split {p u t : List Char} (h : p.isPrefixOf (u ++ t) = true)
    (hl : p.length ≤ u.length) : p.isPrefixOf u = true := by
  induction p generalizing u with
  | nil => exact ipo_nil _
  | cons a as ih =>
    cases u with
    | nil => simp at hl
    | cons b bs =>
      rw [List.cons_append, ipo_cons, Bool.and_eq_true] at h
      rw [ipo_cons, Bool.and_eq_true]
      simp only [List.length_cons, Nat.add_le_add_iff_right] at hl
      exact ⟨h.1, ih h.2 hl⟩

theorem ipo_drop_append {p u t : List Char} (h : p.isPrefixOf (u ++ t) = true)
    (hl : u.length ≤ p.length) : (p.drop u.length).isPrefixOf t = true := by
  induction u generalizing p with
  | nil => simpa using h
  | cons c us ih =>
    cases p with
    | nil => simp at hl
    | cons a as =>
      rw [List.cons_append, ipo_cons, Bool.and_eq_true] at h
      simp only [List.length_cons, Nat.add_le_add_iff_right] at hl
      simpa using ih h.2 hl

theorem ipo_append_cancel (x y z : List Char) :
    (x ++ y).isPrefixOf (x ++ z) = y.isPrefixOf z := by
  induction x with
  | nil => simp
  | cons a as ih => simp [ipo_cons, ih]

theorem ipo_cons_elim {q : List Char} {c : Char} {x : List Char}
    (h : q.isPrefixOf (c :: x) = true) :
    q = [] ∨ (q.head? = some c ∧ (q.drop 1).isPrefixOf x = true) := by
  cases q with
  | nil => exact Or.inl rfl
  | cons a as =>
    rw [ipo_cons, Bool.and_eq_true, beq_iff_eq] at h
    exact Or.inr ⟨by simp [h.1], by simpa using h.2⟩

theorem ipo_cons_intro {q : List Char} {c : Char} {x : List Char}
    (h1 : q.head? = some c) (h2 : (q.drop 1).isPrefixOf x = true) :
    q.isPrefixOf (c :: x) = true := by
  cases q with
  | nil => simp at h1
  | cons a as =>
    simp only [List.head?_cons, Option.some.injEq] at h1
    rw [ipo_cons, Bool.and_eq_true, beq_iff_eq]
    exact ⟨h1, by simpa using h2⟩

theorem ipo_append_or {q r X : List Char} (h : q.isPrefixOf (r ++ X) = true) :
    q.isPrefixOf r = true ∨ r.isPrefixOf q = true := by
  induction r generalizing q with
  | nil => exact Or.inr (ipo_nil _)
  | cons b bs ih =>
    cases q with
    | nil => exact Or.inl (ipo_nil _)
    | cons a as =>
      rw [List.cons_append, ipo_cons, Bool.and_eq_true] at h
      rcases ih h.2 with h2 | h2
      · exact Or.inl (by rw [ipo_cons, Bool.and_eq_true]; exact ⟨h.1, h2⟩)
      · refine Or.inr ?_
        rw [ipo_cons, Bool.and_eq_true, beq_iff_eq]
        exact ⟨(eq_of_beq h.1).symm, h2⟩

/-! Fuel irrelevance and one-step equations for the fueled scanners. -/

theorem replaceAllFuel_nil (p r : List Char) : ∀ m, replaceAllFuel p r m [] = [] := by
  intro m; cases m <;> rfl

theorem replaceAllFuel_congr (p r : List Char) :
    ∀ n m s, s.length ≤ n → s.length ≤ m → replaceAllFuel p r n s = replaceAllFuel p r m s := by
  intro n
  induction n with
  | zero =>
    intro m s hn _
    have hs : s = [] := List.eq_nil_of_length_eq_zero (Nat.le_zero.mp hn)
    subst hs
    rw [replaceAllFuel_nil, replaceAllFuel_nil]
  | succ n ih =>
    intro m s hn hm
    cases s with
    | nil => rw [replaceAllFuel_nil, replaceAllFuel_nil]
    | cons c rest =>
      cases m with
      | zero => simp at hm
      | succ m =>
        simp only [List.length_cons] at hn hm
        by_cases h : (p.isPrefixOf (c :: rest) && !p.isEmpty) = true
        · have hp : 0 < p.length := by
            rcases Bool.and_eq_true .. |>.mp h with ⟨_, hne⟩
            cases p with
            | nil => simp at hne
            | cons _ _ => simp
          simp only [replaceAllFuel, h, if_true]
          rw [ih m _ (by simp only [List.length_drop, List.length_cons]; omega)
            (by simp only [List.length_drop, List.length_cons]; omega)]
        · have hb : (p.isPrefixOf (c :: rest) && !p.isEmpty) = false :=
            Bool.eq_false_iff.mpr h
          simp only [replaceAllFuel, hb, Bool.false_eq_true, if_false]
          rw [ih m _ (by omega) (by omega)]

theorem replaceAll_cons_eq (p r : List Char) (c : Char) (rest : List Char) :
    replaceAll (c :: rest) p r =
      if p.isPrefixOf (c :: rest) && !p.isEmpty then
        r ++ replaceAll ((c :: rest).drop p.length) p r
      else c :: replaceAll rest p r := by
  by_cases h : (p.isPrefixOf (c :: rest) && !p.isEmpty) = true
  · have hp : 0 < p.length := by
      rcases Bool.and_eq_true .. |>.mp h with ⟨_, hne⟩
      cases p with
      | nil => simp at hne
      | cons _ _ => simp
    simp only [replaceAll, List.length_cons, replaceAllFuel, h, if_true]
    congr 1
    apply replaceAllFuel_congr
    · simp only [List.length_drop, List.length_cons]; omega
    · exact Nat.le_refl _
  · have hb : (p.isPrefixOf (c :: rest) && !p.isEmpty) = false :=
      Bool.eq_false_iff.mpr h
    simp only [replaceAll, List.length_cons, replaceAllFuel, hb, Bool.false_eq_true, if_false]

theorem replaceAll_pos {p : List Char} (r : List Char) {c : Char} {rest : List Char}
    (h1 : p.isPrefixOf (c :: rest) = true) (h2 : p ≠ []) :
    replaceAll (c :: rest) p r = r ++ replaceAll ((c :: rest).drop p.length) p r := by
  have he : p.isEmpty = false := by
    cases p with
    | nil => exact absurd rfl h2
    | cons _ _ => rfl
  rw [replaceAll_cons_eq, h1, he]
  rfl

theorem replaceAll_neg {p : List Char} (r : List Char) {c : Char} {rest : List Char}
    (h : (p.isPrefixOf (c :: rest) && !p.isEmpty) = false) :
    replaceAll (c :: rest) p r = c :: replaceAll rest p r := by
  rw [replaceAll_cons_eq, h]
  rfl

theorem findTicksFuel_nil : ∀ m, findTicksFuel m [] = [] := by
  intro m; cases m <;> rfl

theorem findTicksFuel_congr :
    ∀ n m s, s.length ≤ n → s.length ≤ m → findTicksFuel n s = findTicksFuel m s := by
  intro n
  induction n with
  | zero =>
    intro m s hn _
    have hs : s = [] := List.eq_nil_of_length_eq_zero (Nat.le_zero.mp hn)
    subst hs
    rw [findTicksFuel_nil, findTicksFuel_nil]
  | succ n ih =>
    intro m s hn hm
    cases s with
    | nil => rw [findTicksFuel_nil, findTicksFuel_nil]
    | cons c rest =>
      cases m with
      | zero => simp at hm
      | succ m =>
        simp only [List.length_cons] at hn hm
        by_cases h : c = '`'
        · cases htc : tickClose rest with
          | some j =>
            simp only [findTicksFuel, h, if_true, htc]
            rw [ih m _ (by simp only [List.length_drop]; omega)
              (by simp only [List.length_drop]; omega)]
          | none =>
            simp only [findTicksFuel, h, if_true, htc]
            rw [ih m _ (by omega) (by omega)]
        · simp only [findTicksFuel, h, if_false]
          rw [ih m _ (by omega) (by omega)]

theorem findTicks_nil : findTicks [] = [] := rfl

theorem findTicks_cons_tick_some {rest : List Char} {j : Nat} (htc : tickClose rest = some j) :
    findTicks ('`' :: rest) = ('`' :: rest.take (j + 1)) :: findTicks (rest.drop (j + 1)) := by
  simp only [findTicks, List.length_cons, findTicksFuel, if_true, htc]
  congr 1
  apply findTicksFuel_congr
  · simp only [List.length_drop]; omega
  · exact Nat.le_refl _

theorem findTicks_cons_tick_none {rest : List Char} (htc : tickClose rest = none) :
    findTicks ('`' :: rest) = findTicks rest := by
  simp only [findTicks, List.length_cons, findTicksFuel, if_true, htc]

theorem findTicks_cons_other {c : Char} (rest : List Char) (hc : ¬ c = '`') :
    findTicks (c :: rest) = findTicks rest := by
  simp only [findTicks, List.length_cons, findTicksFuel, hc, if_false]

/-! Locality of the scanners: appending text that contains no backtick (and,
where relevant, does not start with a closing parenthesis) does not change
any search outcome, because every pattern ends in a backtick. -/

theorem findChar_not_mem {c : Char} : ∀ {u : List Char}, c ∉ u → findChar c u = none := by
  intro u
  induction u with
  | nil => intro _; rfl
  | cons d rest ih =>
    intro h
    have hd : ¬ d = c := fun he => h (he ▸ List.mem_cons_self _ _)
    simp only [findChar, hd, if_false, ih (fun hm => h (List.mem_cons_of_mem _ hm))]
    rfl

theorem findChar_mem_isSome {c : Char} : ∀ {u : List Char}, c ∈ u → (findChar c u).isSome = true := by
  intro u
  induction u with
  | nil => intro h; simp at h
  | cons d rest ih =>
    intro h
    by_cases hd : d = c
    · simp [findChar, hd]
    · rcases List.mem_cons.mp h with rfl | hm
      · exact absurd rfl hd
      · simp [findChar, hd, Option.isSome_map, ih hm]

theorem findChar_bound {c : Char} : ∀ {u : List Char} {i : Nat},
    findChar c u = some i → i < u.length := by
  intro u
  induction u with
  | nil => intro i h; simp [findChar] at h
  | cons d rest ih =>
    intro i h
    by_cases hd : d = c
    · simp only [findChar, hd, if_true] at h
      cases h
      simp
    · simp only [findChar, hd, if_false] at h
      rcases Option.map_eq_some'.mp h with ⟨j, hj, rfl⟩
      have := ih hj
      simp only [List.length_cons]
      omega

theorem findChar_ext {c : Char} {t : List Char} (ht : c ∉ t) :
    ∀ u, findChar c (u ++ t) = findChar c u := by
  intro u
  induction u with
  | nil => simpa using findChar_not_mem ht
  | cons d rest ih => simp only [List.cons_append, findChar, List.append_eq, ih]

theorem findChar_append_left {c : Char} (t : List Char) :
    ∀ {u : List Char} {i : Nat}, findChar c u = some i → findChar c (u ++ t) = some i := by
  intro u
  induction u with
  | nil => intro i h; simp [findChar] at h
  | cons d rest ih =>
    intro i h
    by_cases hd : d = c
    · simp only [findChar, hd, if_true] at h ⊢
      exact h
    · simp only [findChar, hd, if_false, List.append_eq] at h ⊢
      rcases Option.map_eq_some'.mp h with ⟨j, hj, rfl⟩
      rw [ih hj]
      rfl

theorem nameClose_not_mem {t : List Char} (ht : '`' ∉ t) : nameClose t = none := by
  induction t with
  | nil => rfl
  | cons c rest ih =>
    have hc : ¬ c = '`' := fun he => ht (he ▸ List.mem_cons_self _ _)
    simp only [nameClose, hc, if_false, ih (fun hm => ht (List.mem_cons_of_mem _ hm))]
    rfl

theorem nameClose_ext {t : List Char} (ht : '`' ∉ t) :
    ∀ u, nameClose (u ++ t) = nameClose u := by
  intro u
  induction u with
  | nil => simpa using nameClose_not_mem ht
  | cons c rest ih => simp only [List.cons_append, nameClose, List.append_eq, ih]

theorem nameClose_bound : ∀ {u : List Char} {j : Nat}, nameClose u = some j → j < u.length := by
  intro u
  induction u with
  | nil => intro j h; simp [nameClose] at h
  | cons c rest ih =>
    intro j h
    by_cases hc : c = '`'
    · simp only [nameClose, hc, if_true] at h
      cases h
      simp
    · simp only [nameClose, hc, if_false] at h
      rcases Option.map_eq_some'.mp h with ⟨i, hi, rfl⟩
      have := ih hi
      simp only [List.length_cons]
      omega

theorem tickClose_not_mem {t : List Char} (ht : '`' ∉ t) : tickClose t = none := by
  induction t with
  | nil => rfl
  | cons c rest ih =>
    have hc : ¬ c = '`' := fun he => ht (he ▸ List.mem_cons_self _ _)
    by_cases hn : c = '\n'
    · simp [tickClose, hc, hn]
    · simp only [tickClose, hc, hn, if_false,
        ih (fun hm => ht (List.mem_cons_of_mem _ hm))]
      rfl

theorem tickClose_ext {t : List Char} (ht : '`' ∉ t) :
    ∀ u, tickClose (u ++ t) = tickClose u := by
  intro u
  induction u with
  | nil => simpa using tickClose_not_mem ht
  | cons c rest ih => simp only [List.cons_append, tickClose, List.append_eq, ih]

theorem tickClose_bound : ∀ {u : List Char} {j : Nat}, tickClose u = some j → j < u.length := by
  intro u
  induction u with
  | nil => intro j h; simp [tickClose] at h
  | cons c rest ih =>
    intro j h
    by_cases hc : c = '`'
    · simp only [tickClose, hc, if_true] at h
      cases h
      simp
    · by_cases hn : c = '\n'
      · simp [tickClose, hc, hn] at h
      · simp only [tickClose, hc, hn, if_false] at h
        rcases Option.map_eq_some'.mp h with ⟨i, hi, rfl⟩
        have := ih hi
        simp only [List.length_cons]
        omega

theorem pkClose_not_mem {t : List Char} (ht : '`' ∉ t) : pkClose t = none := by
  induction t with
  | nil => rfl
  | cons c rest ih =>
    have hc : ("`)".data).isPrefixOf (c :: rest) = false := by
      by_contra hne
      have : ("`)".data).isPrefixOf (c :: rest) = true := by
        cases hb : ("`)".data).isPrefixOf (c :: rest)
        · exact absurd hb hne
        · rfl
      exact absurd (ipo_mem this (by decide)) ht
    by_cases hn : c = '\n'
    · simp [pkClose, hc, hn]
    · simp only [pkClose, hc, Bool.false_eq_true, if_false, hn,
        ih (fun hm => ht (List.mem_cons_of_mem _ hm))]
      rfl

theorem pkClose_cons (c : Char) (rest : List Char) :
    pkClose (c :: rest) =
      if ("`)".data).isPrefixOf (c :: rest) = true then some 0
      else if c = '\n' then none else (pkClose rest).map (· + 1) := rfl

theorem pkClose_ext {t : List Char} (ht : '`' ∉ t) (ht2 : t.head? ≠ some ')') :
    ∀ u, pkClose (u ++ t) = pkClose u := by
  intro u
  induction u with
  | nil => simpa using pkClose_not_mem ht
  | cons c rest ih =>
    rw [show (c :: rest) ++ t = c :: (rest ++ t) from rfl, pkClose_cons, pkClose_cons]
    by_cases h1 : ("`)".data).isPrefixOf (c :: (rest ++ t)) = true
    · have h1x : (('`' : Char) :: [')']).isPrefixOf (c :: (rest ++ t)) = true := h1
      rw [ipo_cons, Bool.and_eq_true, beq_iff_eq] at h1x
      obtain ⟨hc, hrest⟩ := h1x
      have h2 : ("`)".data).isPrefixOf (c :: rest) = true := by
        cases rest with
        | nil =>
          exfalso
          simp only [List.nil_append] at hrest
          cases t with
          | nil => simp [ipo_cons_nil] at hrest
          | cons e t2 =>
            rw [ipo_cons, Bool.and_eq_true, beq_iff_eq] at hrest
            exact ht2 (by simp [hrest.1.symm])
        | cons d rest2 =>
          rw [List.cons_append, ipo_cons, Bool.and_eq_true, beq_iff_eq] at hrest
          obtain ⟨hd, _⟩ := hrest
          show (('`' : Char) :: [')']).isPrefixOf (c :: d :: rest2) = true
          rw [ipo_cons, Bool.and_eq_true, beq_iff_eq, ipo_cons, Bool.and_eq_true, beq_iff_eq]
          exact ⟨hc, hd, ipo_nil _⟩
      rw [if_pos h1, if_pos h2]
    · have h2 : ¬ ("`)".data).isPrefixOf (c :: rest) = true := by
        intro hb
        exact h1 (by
          have hx := ipo_append_right t hb
          rwa [List.cons_append] at hx)
      rw [if_neg h1, if_neg h2]
      by_cases hn : c = '\n'
      · rw [if_pos hn, if_pos hn]
      · rw [if_neg hn, if_neg hn, ih]

theorem pkClose_bound : ∀ {u : List Char} {j : Nat}, pkClose u = some j → j + 2 ≤ u.length := by
  intro u
  induction u with
  | nil => intro j h; simp [pkClose] at h
  | cons c rest ih =>
    intro j h
    by_cases h1 : ("`)".data).isPrefixOf (c :: rest) = true
    · simp only [pkClose, h1, if_true] at h
      cases h
      have := ipo_length h1
      simpa using this
    · have h1f : ("`)".data).isPrefixOf (c :: rest) = false := by
        cases hb : ("`)".data).isPrefixOf (c :: rest)
        · rfl
        · exact absurd hb h1
      by_cases hn : c = '\n'
      · simp [pkClose, h1f, hn] at h
      · simp only [pkClose, h1f, Bool.false_eq_true, if_false, hn] at h
        rcases Option.map_eq_some'.mp h with ⟨i, hi, rfl⟩
        have := ih hi
        simp only [List.length_cons]
        omega

theorem nameSearch_cons (c : Char) (rest : List Char) :
    nameSearch (c :: rest) =
      if ("CREATE TABLE `".data).isPrefixOf (c :: rest) = true then
        match nameClose ((c :: rest).drop 14) with
        | some j => some ((c :: rest).take (14 + j + 1))
        | none => nameSearch rest
      else nameSearch rest := rfl

theorem nameSearch_not_mem {t : List Char} (ht : '`' ∉ t) : nameSearch t = none := by
  induction t with
  | nil => rfl
  | cons c rest ih =>
    have hno : ¬ ("CREATE TABLE `".data).isPrefixOf (c :: rest) = true := fun hb =>
      ht (ipo_mem hb (by decide))
    rw [nameSearch_cons, if_neg hno]
    exact ih (fun hm => ht (List.mem_cons_of_mem _ hm))

theorem nameSearch_ext {t : List Char} (ht : '`' ∉ t) :
    ∀ u, nameSearch (u ++ t) = nameSearch u := by
  intro u
  induction u with
  | nil => simpa using nameSearch_not_mem ht
  | cons c rest ih =>
    rw [show (c :: rest) ++ t = c :: (rest ++ t) from rfl, nameSearch_cons, nameSearch_cons]
    by_cases h1 : ("CREATE TABLE `".data).isPrefixOf (c :: (rest ++ t)) = true
    · have hplen : ("CREATE TABLE `".data).length = 14 := by decide
      have h14 : 14 ≤ (c :: rest).length := by
        by_contra hlt
        push_neg at hlt
        have hdrop := ipo_drop_append
          (by rwa [show c :: (rest ++ t) = (c :: rest) ++ t from rfl] at h1)
          (by omega)
        have hfact : ∀ k, k < 14 → '`' ∈ (("CREATE TABLE `".data).drop k) := by decide
        exact absurd (ipo_mem hdrop (hfact _ hlt)) ht
      have h2 : ("CREATE TABLE `".data).isPrefixOf (c :: rest) = true :=
        ipo_append_split
          (by rwa [show c :: (rest ++ t) = (c :: rest) ++ t from rfl] at h1)
          (by omega)
      rw [if_pos h1, if_pos h2]
      have hdropeq : (c :: (rest ++ t)).drop 14 = ((c :: rest).drop 14) ++ t := by
        rw [show c :: (rest ++ t) = (c :: rest) ++ t from rfl, List.drop_append_eq_append_drop,
          show 14 - (c :: rest).length = 0 from by omega, List.drop_zero]
      rw [hdropeq, nameClose_ext ht]
      cases hnc : nameClose ((c :: rest).drop 14) with
      | some j =>
        have hb := nameClose_bound hnc
        simp only [List.length_drop] at hb
        have htake : (c :: (rest ++ t)).take (14 + j + 1) = (c :: rest).take (14 + j + 1) := by
          rw [show c :: (rest ++ t) = (c :: rest) ++ t from rfl, List.take_append_eq_append_take,
            show 14 + j + 1 - (c :: rest).length = 0 from by omega, List.take_zero,
            List.append_nil]
        show some ((c :: (rest ++ t)).take (14 + j + 1)) = some ((c :: rest).take (14 + j + 1))
        rw [htake]
      | none =>
        show nameSearch (rest ++ t) = nameSearch rest
        exact ih
    · have h2 : ¬ ("CREATE TABLE `".data).isPrefixOf (c :: rest) = true := fun hb =>
        h1 (by
          have hx := ipo_append_right t hb
          rwa [List.cons_append] at hx)
      rw [if_neg h1, if_neg h2]
      exact ih

theorem pkSearch_cons (c : Char) (rest : List Char) :
    pkSearch (c :: rest) =
      if ("PRIMARY KEY (`".data).isPrefixOf (c :: rest) = true then
        match pkClose ((c :: rest).drop 14) with
        | some j => some ((c :: rest).take (14 + j + 2))
        | none => pkSearch rest
      else pkSearch rest := rfl

theorem pkSearch_not_mem {t : List Char} (ht : '`' ∉ t) : pkSearch t = none := by
  induction t with
  | nil => rfl
  | cons c rest ih =>
    have hno : ¬ ("PRIMARY KEY (`".data).isPrefixOf (c :: rest) = true := fun hb =>
      ht (ipo_mem hb (by decide))
    rw [pkSearch_cons, if_neg hno]
    exact ih (fun hm => ht (List.mem_cons_of_mem _ hm))

theorem pkSearch_ext {t : List Char} (ht : '`' ∉ t) (ht2 : t.head? ≠ some ')') :
    ∀ u, pkSearch (u ++ t) = pkSearch u := by
  intro u
  induction u with
  | nil => simpa using pkSearch_not_mem ht
  | cons c rest ih =>
    rw [show (c :: rest) ++ t = c :: (rest ++ t) from rfl, pkSearch_cons, pkSearch_cons]
    by_cases h1 : ("PRIMARY KEY (`".data).isPrefixOf (c :: (rest ++ t)) = true
    · have hplen : ("PRIMARY KEY (`".data).length = 14 := by decide
      have h14 : 14 ≤ (c :: rest).length := by
        by_contra hlt
        push_neg at hlt
        have hdrop := ipo_drop_append
          (by rwa [show c :: (rest ++ t) = (c :: rest) ++ t from rfl] at h1)
          (by omega)
        have hfact : ∀ k, k < 14 → '`' ∈ (("PRIMARY KEY (`".data).drop k) := by decide
        exact absurd (ipo_mem hdrop (hfact _ hlt)) ht
      have h2 : ("PRIMARY KEY (`".data).isPrefixOf (c :: rest) = true :=
        ipo_append_split
          (by rwa [show c :: (rest ++ t) = (c :: rest) ++ t from rfl] at h1)
          (by omega)
      rw [if_pos h1, if_pos h2]
      have hdropeq : (c :: (rest ++ t)).drop 14 = ((c :: rest).drop 14) ++ t := by
        rw [show c :: (rest ++ t) = (c :: rest) ++ t from rfl, List.drop_append_eq_append_drop,
          show 14 - (c :: rest).length = 0 from by omega, List.drop_zero]
      rw [hdropeq, pkClose_ext ht ht2]
      cases hnc : pkClose ((c :: rest).drop 14) with
      | some j =>
        have hb := pkClose_bound hnc
        simp only [List.length_drop] at hb
        have htake : (c :: (rest ++ t)).take (14 + j + 2) = (c :: rest).take (14 + j + 2) := by
          rw [show c :: (rest ++ t) = (c :: rest) ++ t from rfl, List.take_append_eq_append_take,
            show 14 + j + 2 - (c :: rest).length = 0 from by omega, List.take_zero,
            List.append_nil]
        show some ((c :: (rest ++ t)).take (14 + j + 2)) = some ((c :: rest).take (14 + j + 2))
        rw [htake]
      | none =>
        show pkSearch (rest ++ t) = pkSearch rest
        exact ih
    · have h2 : ¬ ("PRIMARY KEY (`".data).isPrefixOf (c :: rest) = true := fun hb =>
        h1 (by
          have hx := ipo_append_right t hb
          rwa [List.cons_append] at hx)
      rw [if_neg h1, if_neg h2]
      exact ih

theorem findTicks_not_mem {t : List Char} (ht : '`' ∉ t) : findTicks t = [] := by
  induction t with
  | nil => rfl
  | cons c rest ih =>
    have hc : ¬ c = '`' := fun he => ht (he ▸ List.mem_cons_self _ _)
    rw [findTicks_cons_other _ hc]
    exact ih (fun hm => ht (List.mem_cons_of_mem _ hm))

theorem findTicks_ext_aux {t : List Char} (ht : '`' ∉ t) :
    ∀ n u, u.length ≤ n → findTicks (u ++ t) = findTicks u := by
  intro n
  induction n with
  | zero =>
    intro u hu
    have hs : u = [] := List.eq_nil_of_length_eq_zero (Nat.le_zero.mp hu)
    subst hs
    rw [List.nil_append, findTicks_not_mem ht, findTicks_nil]
  | succ n ih =>
    intro u hu
    cases u with
    | nil => rw [List.nil_append, findTicks_not_mem ht, findTicks_nil]
    | cons c rest =>
      simp only [List.length_cons] at hu
      by_cases hc : c = '`'
      · subst hc
        rw [show ('`' :: rest) ++ t = '`' :: (rest ++ t) from rfl]
        cases htc : tickClose rest with
        | some j =>
          have hb := tickClose_bound htc
          have htcx : tickClose (rest ++ t) = some j := by rw [tickClose_ext ht, htc]
          rw [findTicks_cons_tick_some htcx, findTicks_cons_tick_some htc]
          have htake : (rest ++ t).take (j + 1) = rest.take (j + 1) := by
            rw [List.take_append_eq_append_take,
              show j + 1 - rest.length = 0 from by omega, List.take_zero, List.append_nil]
          have hdrop : (rest ++ t).drop (j + 1) = rest.drop (j + 1) ++ t := by
            rw [List.drop_append_eq_append_drop,
              show j + 1 - rest.length = 0 from by omega, List.drop_zero]
          rw [htake, hdrop, ih _ (by simp only [List.length_drop]; omega)]
        | none =>
          have htcx : tickClose (rest ++ t) = none := by rw [tickClose_ext ht, htc]
          rw [findTicks_cons_tick_none htcx, findTicks_cons_tick_none htc]
          exact ih _ (by omega)
      · rw [show (c :: rest) ++ t = c :: (rest ++ t) from rfl, findTicks_cons_other _ hc,
          findTicks_cons_other _ hc]
        exact ih _ (by omega)

theorem findTicks_ext {t : List Char} (ht : '`' ∉ t) (u : List Char) :
    findTicks (u ++ t) = findTicks u :=
  findTicks_ext_aux ht u.length u (Nat.le_refl _)

/-! Occurrences and `replaceAll`. -/

theorem occursB_cons_eq (p : List Char) (c : Char) (rest : List Char) :
    occursB p (c :: rest) = (p.isPrefixOf (c :: rest) || occursB p rest) := rfl

theorem occursB_of_ipo {p s : List Char} (h : p.isPrefixOf s = true) : occursB p s = true := by
  cases s with
  | nil => exact h
  | cons c rest => rw [occursB_cons_eq, h, Bool.true_or]

theorem occursB_tail {p : List Char} {c : Char} {rest : List Char}
    (h : occursB p rest = true) : occursB p (c :: rest) = true := by
  rw [occursB_cons_eq, h, Bool.or_true]

theorem occursB_drop {p : List Char} :
    ∀ {s : List Char} {n : Nat}, occursB p (s.drop n) = true → occursB p s = true := by
  intro s
  induction s with
  | nil => intro n h; simpa using h
  | cons c rest ih =>
    intro n h
    cases n with
    | zero => exact h
    | succ n =>
      rw [List.drop_succ_cons] at h
      exact occursB_tail (ih h)

theorem occursB_append_lift {p t : List Char} (h : occursB p t = true) :
    ∀ u, occursB p (u ++ t) = true := by
  intro u
  induction u with
  | nil => simpa using h
  | cons c us ih => exact occursB_tail ih

theorem occursB_append_within {p u : List Char} (t : List Char) (h : occursB p u = true) :
    occursB p (u ++ t) = true := by
  induction u with
  | nil =>
    have hq : p = [] := by
      cases p with
      | nil => rfl
      | cons a as => simp [occursB, ipo_cons_nil] at h
    subst hq
    exact occursB_of_ipo (ipo_nil _)
  | cons c us ih =>
    rw [occursB_cons_eq] at h
    rcases (Bool.or_eq_true _ _).mp h with hp | ho
    · exact occursB_of_ipo (by simpa [List.cons_append] using ipo_append_right t hp)
    · exact occursB_tail (ih ho)

theorem occursB_append_cases {q u t : List Char} (h : occursB q (u ++ t) = true) :
    occursB q t = true ∨ ∃ j, j ≤ u.length ∧ q.isPrefixOf (u.drop j ++ t) = true := by
  induction u with
  | nil => exact Or.inl (by simpa using h)
  | cons c us ih =>
    rw [show (c :: us) ++ t = c :: (us ++ t) from rfl, occursB_cons_eq] at h
    rcases (Bool.or_eq_true _ _).mp h with hp | ho
    · exact Or.inr ⟨0, by simp, by simpa using hp⟩
    · rcases ih ho with h1 | ⟨j, hj, hpre⟩
      · exact Or.inl h1
      · refine Or.inr ⟨j + 1, by simp only [List.length_cons]; omega, ?_⟩
        simpa [List.drop_succ_cons] using hpre

theorem occursB_append_no_straddle {q u t : List Char}
    (hhd : ∀ c, t.head? = some c → c ∉ q) (h : occursB q (u ++ t) = true) :
    occursB q u = true ∨ occursB q t = true := by
  rcases occursB_append_cases h with h1 | ⟨j, _, hpre⟩
  · exact Or.inr h1
  · rcases ipo_append_or hpre with hqw | hwq
    · exact Or.inl (occursB_drop (occursB_of_ipo hqw))
    · cases hq2 : q.drop (u.drop j).length with
      | nil =>
        have hlen : q.length ≤ (u.drop j).length := by
          have := List.drop_eq_nil_iff.mp hq2
          omega
        have hlen2 : (u.drop j).length ≤ q.length := ipo_length hwq
        have heq : u.drop j = q := by
          have hx := ipo_take hwq
          rw [show (u.drop j).length = q.length from le_antisymm hlen2 hlen,
            List.take_length] at hx
          exact hx.symm
        have hself : q.isPrefixOf (u.drop j) = true := by
          rw [heq]
          exact ipo_refl q
        exact Or.inl (occursB_drop (occursB_of_ipo hself))
      | cons d q2 =>
        exfalso
        have hdrop := ipo_drop_append hpre (ipo_length hwq)
        rw [hq2] at hdrop
        cases t with
        | nil => simp [ipo_cons_nil] at hdrop
        | cons e t2 =>
          rcases ipo_cons_elim hdrop with hnil | ⟨hh, _⟩
          · cases hnil
          · have hde : d = e := by simpa using hh
            refine hhd e rfl ?_
            rw [← hde]
            exact List.mem_of_mem_drop (hq2 ▸ List.mem_cons_self d q2)

theorem replaceAll_prefix_pull {p r : List Char} (hp : p ≠ []) :
    ∀ b q, NoAlign q r → q.isPrefixOf (replaceAll b p r) = true → q.isPrefixOf b = true := by
  intro b
  induction b with
  | nil =>
    intro q hna h
    have h2 : q.isPrefixOf ([] : List Char) = true := h
    cases q with
    | nil => exact ipo_nil _
    | cons a as => simp [ipo_cons_nil] at h2
  | cons c rest ih =>
    intro q hna h
    by_cases hm : p.isPrefixOf (c :: rest) = true
    · rw [replaceAll_pos r hm hp] at h
      cases q with
      | nil => exact ipo_nil _
      | cons a as =>
        rcases ipo_append_or h with hqr | hrq
        · have hfalse := (hna 0 (by simp)).1
          rw [List.drop_zero, hqr] at hfalse
          exact absurd hfalse (by simp)
        · have hfalse := (hna 0 (by simp)).2
          rw [List.drop_zero, hrq] at hfalse
          exact absurd hfalse (by simp)
    · have hmf : (p.isPrefixOf (c :: rest) && !p.isEmpty) = false := by
        rw [Bool.eq_false_iff.mpr hm]
        rfl
      rw [replaceAll_neg r hmf] at h
      cases q with
      | nil => exact ipo_nil _
      | cons a as =>
        rw [ipo_cons, Bool.and_eq_true] at h ⊢
        refine ⟨h.1, ih as ?_ h.2⟩
        intro j hj
        have hx := hna (j + 1) (by simp only [List.length_cons]; omega)
        simpa [List.drop_succ_cons] using hx

/-! An occurrence of the malformed date literal in the output of either
whole-file substitution traces back to the input: the date substitution can
only recreate the literal when an input occurrence is immediately followed
by a second copy of its `DEFAULT` part, and the engine substitution can
never create one. -/

theorem replOcc_date :
    ∀ n s, s.length ≤ n →
      occursB dateBad (replaceAll s dateBad dateGood) = true →
      occursB (dateBad ++ dateTail) s = true := by
  intro n
  induction n with
  | zero =>
    intro s hs h
    have hnil : s = [] := List.eq_nil_of_length_eq_zero (Nat.le_zero.mp hs)
    subst hnil
    exact absurd h (by decide)
  | succ n ih =>
    intro s hs h
    cases s with
    | nil => exact absurd h (by decide)
    | cons c rest =>
      simp only [List.length_cons] at hs
      by_cases hm : dateBad.isPrefixOf (c :: rest) = true
      · rw [replaceAll_pos dateGood hm (by decide)] at h
        have hrec : occursB dateBad
            (replaceAll ((c :: rest).drop dateBad.length) dateBad dateGood) = true →
            occursB (dateBad ++ dateTail) (c :: rest) = true := by
          intro h1
          have hlen : ((c :: rest).drop dateBad.length).length ≤ n := by
            simp only [List.length_drop, List.length_cons]
            have hbl : dateBad.length = 34 := by decide
            omega
          exact occursB_drop (ih _ hlen h1)
        rcases occursB_append_cases h with h1 | ⟨j, hj, hpre⟩
        · exact hrec h1
        · by_cases hj0 : j = 0
          · subst hj0
            rw [List.drop_zero] at hpre
            have hcancel : dateTail.isPrefixOf
                (replaceAll ((c :: rest).drop dateBad.length) dateBad dateGood) = true := by
              have hx : (dateGood ++ dateTail).isPrefixOf
                  (dateGood ++ replaceAll ((c :: rest).drop dateBad.length) dateBad dateGood)
                    = true := hpre
              rwa [ipo_append_cancel] at hx
            have hpull := replaceAll_prefix_pull (p := dateBad) (r := dateGood) (by decide)
              _ _ (by decide) hcancel
            have hsplit : (c :: rest) = dateBad ++ (c :: rest).drop dateBad.length := by
              conv_lhs => rw [← List.take_append_drop dateBad.length (c :: rest)]
              rw [ipo_take hm]
            have hfull : (dateBad ++ dateTail).isPrefixOf (c :: rest) = true := by
              rw [hsplit, ipo_append_cancel]
              exact hpull
            exact occursB_of_ipo hfull
          · rcases Nat.lt_or_ge j dateGood.length with hlt | hge
            · exfalso
              have hw : dateGood.drop j ≠ [] := by
                intro hwnil
                have := List.drop_eq_nil_iff.mp hwnil
                omega
              cases hwc : dateGood.drop j with
              | nil => exact hw hwc
              | cons e w2 =>
                rw [hwc, show (e :: w2) ++ _ = e :: (w2 ++ _) from rfl] at hpre
                rcases ipo_cons_elim hpre with hqnil | ⟨hqh, _⟩
                · exact absurd hqnil (by decide)
                · have hed : e = 'd' := by
                    rw [show dateBad.head? = some 'd' from by decide] at hqh
                    exact (Option.some.injEq _ _ |>.mp hqh).symm
                  have hfact : ∀ jj, jj < dateGood.length → 0 < jj →
                      ¬ (dateGood.drop jj).head? = some 'd' := by decide
                  exact hfact j hlt (Nat.pos_of_ne_zero hj0) (by rw [hwc, hed]; rfl)
            · have hj13 : j = dateGood.length := le_antisymm hj hge
              rw [hj13, List.drop_length, List.nil_append] at hpre
              exact hrec (occursB_of_ipo hpre)
      · have hmf : (dateBad.isPrefixOf (c :: rest) && !dateBad.isEmpty) = false := by
          rw [Bool.eq_false_iff.mpr hm]
          rfl
        rw [replaceAll_neg dateGood hmf, occursB_cons_eq] at h
        rcases (Bool.or_eq_true _ _).mp h with hp | ho
        · exfalso
          rcases ipo_cons_elim hp with hqnil | ⟨hqh, hqt⟩
          · exact absurd hqnil (by decide)
          · have hcd : c = 'd' := by
              rw [show dateBad.head? = some 'd' from by decide] at hqh
              exact (Option.some.injEq _ _ |>.mp hqh).symm
            have hpull := replaceAll_prefix_pull (p := dateBad) (r := dateGood) (by decide)
              rest _ (by decide) hqt
            have : dateBad.isPrefixOf (c :: rest) = true :=
              ipo_cons_intro (by rw [hcd]; decide) hpull
            exact hm this
        · exact occursB_tail (ih rest (by omega) ho)

theorem replaceAll_date_occ {s : List Char}
    (h : occursB dateBad (replaceAll s dateBad dateGood) = true) :
    occursB (dateBad ++ dateTail) s = true :=
  replOcc_date s.length s (Nat.le_refl _) h

theorem replOcc_engine :
    ∀ n s, s.length ≤ n →
      occursB dateBad (replaceAll s engMyISAM engInnoDB) = true →
      occursB dateBad s = true := by
  intro n
  induction n with
  | zero =>
    intro s hs h
    have hnil : s = [] := List.eq_nil_of_length_eq_zero (Nat.le_zero.mp hs)
    subst hnil
    exact absurd h (by decide)
  | succ n ih =>
    intro s hs h
    cases s with
    | nil => exact absurd h (by decide)
    | cons c rest =>
      simp only [List.length_cons] at hs
      by_cases hm : engMyISAM.isPrefixOf (c :: rest) = true
      · rw [replaceAll_pos engInnoDB hm (by decide)] at h
        have hrec : occursB dateBad
            (replaceAll ((c :: rest).drop engMyISAM.length) engMyISAM engInnoDB) = true →
            occursB dateBad (c :: rest) = true := by
          intro h1
          have hlen : ((c :: rest).drop engMyISAM.length).length ≤ n := by
            simp only [List.length_drop, List.length_cons]
            have hbl : engMyISAM.length = 13 := by decide
            omega
          exact occursB_drop (ih _ hlen h1)
        rcases occursB_append_cases h with h1 | ⟨j, hj, hpre⟩
        · exact hrec h1
        · rcases Nat.lt_or_ge j engInnoDB.length with hlt | hge
          · exfalso
            have hw : engInnoDB.drop j ≠ [] := by
              intro hwnil
              have := List.drop_eq_nil_iff.mp hwnil
              omega
            cases hwc : engInnoDB.drop j with
            | nil => exact hw hwc
            | cons e w2 =>
              rw [hwc, show (e :: w2) ++ _ = e :: (w2 ++ _) from rfl] at hpre
              rcases ipo_cons_elim hpre with hqnil | ⟨hqh, _⟩
              · exact absurd hqnil (by decide)
              · have hed : e = 'd' := by
                  rw [show dateBad.head? = some 'd' from by decide] at hqh
                  exact (Option.some.injEq _ _ |>.mp hqh).symm
                have hfact : ∀ jj, jj < engInnoDB.length →
                    ¬ (engInnoDB.drop jj).head? = some 'd' := by decide
                exact hfact j hlt (by rw [hwc, hed]; rfl)
          · have hj13 : j = engInnoDB.length := le_antisymm hj hge
            rw [hj13, List.drop_length, List.nil_append] at hpre
            exact hrec (occursB_of_ipo hpre)
      · have hmf : (engMyISAM.isPrefixOf (c :: rest) && !engMyISAM.isEmpty) = false := by
          rw [Bool.eq_false_iff.mpr hm]
          rfl
        rw [replaceAll_neg engInnoDB hmf, occursB_cons_eq] at h
        rcases (Bool.or_eq_true _ _).mp h with hp | ho
        · rcases ipo_cons_elim hp with hqnil | ⟨hqh, hqt⟩
          · exact absurd hqnil (by decide)
          · have hcd : c = 'd' := by
              rw [show dateBad.head? = some 'd' from by decide] at hqh
              exact (Option.some.injEq _ _ |>.mp hqh).symm
            have hpull := replaceAll_prefix_pull (p := engMyISAM) (r := engInnoDB) (by decide)
              rest _ (by decide) hqt
            exact occursB_of_ipo (ipo_cons_intro (by rw [hcd]; decide) hpull)
        · exact occursB_tail (ih rest (by omega) ho)

theorem replaceAll_engine_occ {s : List Char}
    (h : occursB dateBad (replaceAll s engMyISAM engInnoDB) = true) :
    occursB dateBad s = true :=
  replOcc_engine s.length s (Nat.le_refl _) h

/-! Splitting a `replaceAll` around a unique occurrence of the pattern. -/

theorem replaceAll_split {p : List Char} (r b : List Char) (hp : p ≠ []) :
    ∀ a, (∀ i, i < a.length → p.isPrefixOf ((a ++ p ++ b).drop i) = false) →
      replaceAll (a ++ p ++ b) p r = a ++ r ++ replaceAll b p r := by
  intro a
  induction a with
  | nil =>
    intro _
    simp only [List.nil_append]
    cases p with
    | nil => exact absurd rfl hp
    | cons q qs =>
      rw [show (q :: qs) ++ b = q :: (qs ++ b) from rfl,
        replaceAll_pos r (by
          rw [show q :: (qs ++ b) = (q :: qs) ++ b from rfl]
          exact ipo_append_right b (ipo_refl _)) hp]
      rw [show (q :: (qs ++ b)).drop (q :: qs).length = b from List.drop_left (q :: qs) b]
  | cons c as ih =>
    intro h
    have h0 : p.isPrefixOf (c :: (as ++ p ++ b)) = false := by
      have hx := h 0 (by simp)
      simpa [List.cons_append] using hx
    rw [show (c :: as) ++ p ++ b = c :: (as ++ p ++ b) from rfl,
      replaceAll_neg r (by rw [h0]; rfl),
      ih (fun i hi => by
        have hx := h (i + 1) (by simp only [List.length_cons]; omega)
        simpa [List.cons_append, List.drop_succ_cons] using hx)]
    rfl

theorem replaceAll_no_occur {p : List Char} (r : List Char) :
    ∀ s, (∀ i, i < s.length → p.isPrefixOf (s.drop i) = false) → replaceAll s p r = s := by
  intro s
  induction s with
  | nil => intro _; rfl
  | cons c rest ih =>
    intro h
    have h0 : p.isPrefixOf (c :: rest) = false := h 0 (by simp)
    rw [replaceAll_neg r (by rw [h0]; rfl),
      ih (fun i hi => h (i + 1) (by simp only [List.length_cons]; omega))]

theorem not_mem_replaceAll_single (c : Char) :
    ∀ s, c ∉ replaceAll s [c] [] := by
  intro s
  induction s with
  | nil =>
    exact List.not_mem_nil c
  | cons d rest ih =>
    by_cases hd : ([c]).isPrefixOf (d :: rest) = true
    · rw [replaceAll_pos [] hd (by simp)]
      simpa using ih
    · have hdf : ([c]).isPrefixOf (d :: rest) = false := Bool.eq_false_iff.mpr hd
      rw [replaceAll_neg [] (by rw [hdf]; rfl)]
      intro hmem
      rcases List.mem_cons.mp hmem with rfl | hm
      · rw [ipo_cons, beq_self_eq_true, Bool.true_and, ipo_nil] at hdf
        simp at hdf
      · exact ih hm

/-! Lemmas about `optMap`, `dictLookup`, `dictSet`, `pyListSet`. -/

theorem optMap_none_iff {α β : Type} (f : α → Option β) :
    ∀ l : List α, optMap f l = none ↔ ∃ a ∈ l, f a = none := by
  intro l
  induction l with
  | nil => simp [optMap]
  | cons a rest ih =>
    constructor
    · intro h
      cases hfa : f a with
      | none => exact ⟨a, List.mem_cons_self _ _, hfa⟩
      | some v =>
        cases hrest : optMap f rest with
        | none =>
          rcases ih.mp hrest with ⟨x, hx, hfx⟩
          exact ⟨x, List.mem_cons_of_mem _ hx, hfx⟩
        | some vs => simp [optMap, hfa, hrest] at h
    · rintro ⟨x, hx, hfx⟩
      rcases List.mem_cons.mp hx with rfl | hm
      · simp [optMap, hfx]
      · cases hfa : f a with
        | none => simp [optMap, hfa]
        | some v =>
          have : optMap f rest = none := ih.mpr ⟨x, hm, hfx⟩
          simp [optMap, hfa, this]

theorem optMap_eq_map {α β : Type} (f : α → Option β) (dflt : β) :
    ∀ l : List α, (∀ a ∈ l, (f a).isSome = true) →
      optMap f l = some (l.map (fun a => (f a).getD dflt)) := by
  intro l
  induction l with
  | nil => intro _; rfl
  | cons a rest ih =>
    intro h
    have ha := h a (List.mem_cons_self _ _)
    cases hfa : f a with
    | none => rw [hfa] at ha; simp at ha
    | some v =>
      rw [show optMap f (a :: rest) = (match f a, optMap f rest with
        | some v, some vs => some (v :: vs)
        | _, _ => none) from rfl,
        hfa, ih (fun x hx => h x (List.mem_cons_of_mem _ hx))]
      simp [hfa]

theorem optMap_mem {α β : Type} (f : α → Option β) :
    ∀ {l : List α} {vs : List β}, optMap f l = some vs →
      ∀ v ∈ vs, ∃ a ∈ l, f a = some v := by
  intro l
  induction l with
  | nil =>
    intro vs h v hv
    cases h
    simp at hv
  | cons a rest ih =>
    intro vs h v hv
    cases hfa : f a with
    | none => simp [optMap, hfa] at h
    | some w =>
      cases hrest : optMap f rest with
      | none => simp [optMap, hfa, hrest] at h
      | some ws =>
        simp only [optMap, hfa, hrest] at h
        cases h
        rcases List.mem_cons.mp hv with rfl | hm
        · exact ⟨a, List.mem_cons_self _ _, hfa⟩
        · rcases ih hrest v hm with ⟨x, hx, hfx⟩
          exact ⟨x, List.mem_cons_of_mem _ hx, hfx⟩

theorem optMap_length {α β : Type} (f : α → Option β) :
    ∀ {l : List α} {vs : List β}, optMap f l = some vs → vs.length = l.length := by
  intro l
  induction l with
  | nil => intro vs h; cases h; rfl
  | cons a rest ih =>
    intro vs h
    cases hfa : f a with
    | none => simp [optMap, hfa] at h
    | some w =>
      cases hrest : optMap f rest with
      | none => simp [optMap, hfa, hrest] at h
      | some ws =>
        simp only [optMap, hfa, hrest] at h
        cases h
        simp [ih hrest]

theorem dictLookup_mem {α β : Type} [DecidableEq α] {k : α} {v : β} :
    ∀ {d : List (α × β)}, dictLookup d k = some v → ∃ p ∈ d, p.2 = v := by
  intro d
  induction d with
  | nil => intro h; cases h
  | cons p rest ih =>
    intro h
    by_cases hp : p.1 = k
    · rw [show dictLookup (p :: rest) k = some p.2 from by simp [dictLookup, hp]] at h
      exact ⟨p, List.mem_cons_self _ _, Option.some.injEq _ _ |>.mp h⟩
    · rw [show dictLookup (p :: rest) k = dictLookup rest k from by simp [dictLookup, hp]] at h
      rcases ih h with ⟨q, hq, hv⟩
      exact ⟨q, List.mem_cons_of_mem _ hq, hv⟩

theorem pyListSet_subset {x : List Char} :
    ∀ {l : List (List Char)}, x ∈ pyListSet l → x ∈ l := by
  have step : ∀ (l : List (List Char)) (acc : List (List Char)),
      x ∈ l.foldl (fun acc y => if y ∈ acc then acc else acc ++ [y]) acc →
        x ∈ acc ∨ x ∈ l := by
    intro l
    induction l with
    | nil => intro acc h; exact Or.inl h
    | cons a rest ih =>
      intro acc h
      rcases ih _ h with hacc | hrest
      · have hacc2 : x ∈ (if a ∈ acc then acc else acc ++ [a]) := hacc
        by_cases ha : a ∈ acc
        · rw [if_pos ha] at hacc2
          exact Or.inl hacc2
        · rw [if_neg ha] at hacc2
          rcases List.mem_append.mp hacc2 with h1 | h1
          · exact Or.inl h1
          · simp only [List.mem_singleton] at h1
            exact Or.inr (h1 ▸ List.mem_cons_self _ _)
      · exact Or.inr (List.mem_cons_of_mem _ hrest)
  intro l h
  rcases step l [] h with hacc | hl
  · simp at hacc
  · exact hl

theorem not_mem_flatten {c : Char} :
    ∀ {l : List (List Char)}, (∀ x ∈ l, c ∉ x) → c ∉ l.flatten := by
  intro l
  induction l with
  | nil => intro _; simp
  | cons a rest ih =>
    intro h
    simp only [List.flatten_cons, List.mem_append]
    rintro (h1 | h1)
    · exact h a (List.mem_cons_self _ _) h1
    · exact ih (fun x hx => h x (List.mem_cons_of_mem _ hx)) h1


theorem dictLookup_cons {α β : Type} [DecidableEq α] (p : α × β) (rest : List (α × β)) (k : α) :
    dictLookup (p :: rest) k = if p.1 = k then some p.2 else dictLookup rest k := rfl

theorem dictLookup_not_found {α β : Type} [DecidableEq α] {k : α} :
    ∀ {d : List (α × β)}, (∀ p ∈ d, ¬ p.1 = k) → dictLookup d k = none := by
  intro d
  induction d with
  | nil => intro _; rfl
  | cons p d2 ih =>
    intro h
    rw [dictLookup_cons, if_neg (h p (List.mem_cons_self _ _))]
    exact ih (fun q hq => h q (List.mem_cons_of_mem _ hq))

theorem dictLookup_map_update {α β : Type} [DecidableEq α] (k kp : α) (v : β) :
    ∀ d : List (α × β),
      dictLookup (d.map (fun p => if p.1 = k then (k, v) else p)) kp =
        if kp = k then (if d.any (fun p => decide (p.1 = k)) then some v else none)
        else dictLookup d kp := by
  intro d
  induction d with
  | nil => by_cases h : kp = k <;> simp [dictLookup, h]
  | cons p d2 ih =>
    simp only [List.map_cons, List.any_cons]
    by_cases hpk : p.1 = k
    · simp only [if_pos hpk, dictLookup_cons]
      by_cases hkp : kp = k
      · rw [if_pos (show (k, v).1 = kp from hkp.symm), if_pos hkp]
        simp [hpk]
      · rw [if_neg (show ¬ (k, v).1 = kp from fun he => hkp he.symm), ih, if_neg hkp,
          if_neg hkp, if_neg (show ¬ p.1 = kp from by
            rw [hpk]; exact fun he => hkp he.symm)]
    · simp only [if_neg hpk, dictLookup_cons]
      by_cases hp1 : p.1 = kp
      · have hkpk : ¬ kp = k := fun he => hpk (by rw [hp1, he])
        rw [if_pos hp1, if_neg hkpk, if_pos hp1]
      · rw [if_neg hp1, ih]
        by_cases hkp : kp = k
        · rw [if_pos hkp, if_pos hkp]
          simp only [decide_eq_false hpk, Bool.false_or]
        · rw [if_neg hkp, if_neg hkp, if_neg hp1]

theorem dictLookup_append {α β : Type} [DecidableEq α] (kp : α) (e : List (α × β)) :
    ∀ d : List (α × β),
      dictLookup (d ++ e) kp =
        match dictLookup d kp with
        | some v => some v
        | none => dictLookup e kp := by
  intro d
  induction d with
  | nil => simp [dictLookup]
  | cons p d2 ih =>
    simp only [List.cons_append, dictLookup_cons]
    by_cases hp : p.1 = kp
    · rw [if_pos hp, if_pos hp]
    · rw [if_neg hp, if_neg hp]
      exact ih

theorem dictLookup_dictSet {α β : Type} [DecidableEq α] (d : List (α × β)) (k kp : α) (v : β) :
    dictLookup (dictSet d k v) kp = if kp = k then some v else dictLookup d kp := by
  unfold dictSet
  by_cases hany : d.any (fun p => decide (p.1 = k)) = true
  · rw [if_pos hany, dictLookup_map_update, hany]
    by_cases hkp : kp = k
    · rw [if_pos hkp, if_pos hkp]
      rfl
    · rw [if_neg hkp, if_neg hkp]
  · rw [if_neg hany, dictLookup_append]
    have hnone : ∀ p ∈ d, ¬ p.1 = k := by
      intro p hp hb
      exact hany (List.any_eq_true.mpr ⟨p, hp, by simp [hb]⟩)
    by_cases hkp : kp = k
    · subst hkp
      rw [dictLookup_not_found hnone, if_pos rfl]
      show dictLookup [(kp, v)] kp = some v
      rw [dictLookup_cons, if_pos rfl]
    · rw [if_neg hkp]
      cases hd : dictLookup d kp with
      | some w => rfl
      | none =>
        show dictLookup [(k, v)] kp = none
        rw [dictLookup_cons, if_neg (show ¬ (k = kp) from fun he => hkp he.symm)]
        rfl

theorem find_append {α : Type} (p : α → Bool) (l2 : List α) :
    ∀ l1 : List α,
      (l1 ++ l2).find? p =
        match l1.find? p with
        | some x => some x
        | none => l2.find? p := by
  intro l1
  induction l1 with
  | nil => simp
  | cons a rest ih =>
    by_cases ha : p a = true
    · simp [List.find?, ha]
    · have haf : p a = false := Bool.eq_false_iff.mpr ha
      simp only [List.cons_append, List.find?, haf]
      exact ih

theorem buildOwners_lookup (k : List Char) :
    ∀ (bodies : List (List Char)) (d : List (List Char × List Char)),
      dictLookup (bodies.foldl ownerStep d) k =
        match bodies.reverse.find?
            (fun b => decide (get_primary_key b = some (PyKey.single k))) with
        | some b => some (pyName b)
        | none => dictLookup d k := by
  intro bodies
  induction bodies with
  | nil => intro d; rfl
  | cons b rest ih =>
    intro d
    rw [List.foldl_cons, ih, List.reverse_cons, find_append]
    cases hfind : rest.reverse.find?
        (fun b => decide (get_primary_key b = some (PyKey.single k))) with
    | some b2 => rfl
    | none =>
      show dictLookup (ownerStep d b) k =
        (match List.find? (fun b => decide (get_primary_key b = some (PyKey.single k))) [b] with
          | some b => some (pyName b)
          | none => dictLookup d k)
      unfold ownerStep
      cases hpk : get_primary_key b with
      | none =>
        rw [show List.find? (fun b => decide (get_primary_key b = some (PyKey.single k))) [b]
            = none from by simp [List.find?, hpk]]
      | some key =>
        cases key with
        | single kb =>
          by_cases hkb : kb = k
          · subst hkb
            rw [show List.find? (fun b => decide (get_primary_key b = some (PyKey.single kb))) [b]
                = some b from by simp [List.find?, hpk]]
            rw [dictLookup_dictSet]
            simp
          · rw [show List.find? (fun b => decide (get_primary_key b = some (PyKey.single k))) [b]
                = none from by simp [List.find?, hpk, hkb]]
            rw [dictLookup_dictSet]
            rw [if_neg (fun he : k = kb => hkb he.symm)]
        | multi l =>
          rw [show List.find? (fun b => decide (get_primary_key b = some (PyKey.single k))) [b]
              = none from by simp [List.find?, hpk]]

/-! Auxiliary facts for the claims about absent matches. -/

theorem nameSearch_none_of_hasNameB :
    ∀ body : List Char, hasNameB body = false → nameSearch body = none := by
  intro body
  induction body with
  | nil => intro _; rfl
  | cons c rest ih =>
    intro h
    rw [show hasNameB (c :: rest) =
        ((("CREATE TABLE `".data).isPrefixOf (c :: rest)
          && (nameClose ((c :: rest).drop 14)).isSome) || hasNameB rest) from rfl] at h
    rcases Bool.or_eq_false_iff.mp h with ⟨h1, h2⟩
    rw [nameSearch_cons]
    by_cases hpre : ("CREATE TABLE `".data).isPrefixOf (c :: rest) = true
    · rw [hpre, Bool.true_and] at h1
      rw [if_pos hpre]
      cases hnc : nameClose ((c :: rest).drop 14) with
      | some j => rw [hnc] at h1; simp at h1
      | none => exact ih h2
    · rw [if_neg hpre]
      exact ih h2

theorem pkSearch_none_of_hasPkB :
    ∀ body : List Char, hasPkB body = false → pkSearch body = none := by
  intro body
  induction body with
  | nil => intro _; rfl
  | cons c rest ih =>
    intro h
    rw [show hasPkB (c :: rest) =
        ((("PRIMARY KEY (`".data).isPrefixOf (c :: rest)
          && (pkClose ((c :: rest).drop 14)).isSome) || hasPkB rest) from rfl] at h
    rcases Bool.or_eq_false_iff.mp h with ⟨h1, h2⟩
    rw [pkSearch_cons]
    by_cases hpre : ("PRIMARY KEY (`".data).isPrefixOf (c :: rest) = true
    · rw [hpre, Bool.true_and] at h1
      rw [if_pos hpre]
      cases hnc : pkClose ((c :: rest).drop 14) with
      | some j => rw [hnc] at h1; simp at h1
      | none => exact ih h2
    · rw [if_neg hpre]
      exact ih h2

/-! The claims. -/

/-- C1: for a table whose primary key is a single column name, the foreign-key
list is exactly the fields ending in `Id` with the entry equal to that primary
key removed; in particular it never contains the primary key. -/
theorem claim_C1 (body k : List Char) (fs : List (List Char))
    (hpk : get_primary_key body = some (PyKey.single k))
    (hf : get_fields body = some fs) :
    get_foreign_keys body =
      some ((fs.filter (fun x => ("Id".data).isSuffixOf x)).filter (fun x => x ≠ k)) ∧
    ∀ l, get_foreign_keys body = some l → k ∉ l := by
  have hmain : get_foreign_keys body =
      some ((fs.filter (fun x => ("Id".data).isSuffixOf x)).filter (fun x => x ≠ k)) := by
    unfold get_foreign_keys fkOf
    rw [hf, hpk]
    simp only [Option.map_some']
    congr 1
    apply List.filter_congr
    intro x _
    show pkNeq x (some (PyKey.single k)) = decide (x ≠ k)
    unfold pkNeq
    by_cases hx : x = k
    · subst hx
      simp
    · simp [hx, bne_iff_ne]
  refine ⟨hmain, ?_⟩
  intro l hl
  rw [hmain] at hl
  cases hl
  intro hmem
  have := (List.mem_filter.mp hmem).2
  simp at this

/-- Witness for C1 on a concrete drivers table. -/
theorem claim_C1_witness :
    get_primary_key bodyDrv = some (PyKey.single ("driverId".data)) ∧
    (get_foreign_keys bodyDrv =
      some ((fieldsDrv.filter (fun x => ("Id".data).isSuffixOf x)).filter
        (fun x => x ≠ "driverId".data)) ∧
    ∀ l, get_foreign_keys bodyDrv = some l → ("driverId".data) ∉ l) :=
  ⟨by decide, claim_C1 bodyDrv ("driverId".data) fieldsDrv (by decide) (by decide)⟩

/-- C2: for a table whose primary key is composite, nothing is excluded — the
foreign-key list is all fields ending in `Id`, including any component of the
composite key, because a string never equals the list value. -/
theorem claim_C2 (body : List Char) (ks fs : List (List Char))
    (hpk : get_primary_key body = some (PyKey.multi ks))
    (hf : get_fields body = some fs) :
    get_foreign_keys body = some (fs.filter (fun x => ("Id".data).isSuffixOf x)) ∧
    ∀ c ∈ fs, ("Id".data).isSuffixOf c = true →
      c ∈ fs.filter (fun x => ("Id".data).isSuffixOf x) := by
  constructor
  · unfold get_foreign_keys fkOf
    rw [hf, hpk]
    simp only [Option.map_some']
    congr 1
    apply List.filter_eq_self.mpr
    intro a _
    rfl
  · intro c hc hsuf
    exact List.mem_filter.mpr ⟨hc, hsuf⟩

/-- Witness for C2 on a concrete composite-key table. -/
theorem claim_C2_witness :
    get_primary_key bodyComp = some (PyKey.multi ["raceId".data, "driverId".data]) ∧
    (get_foreign_keys bodyComp =
      some (fieldsComp.filter (fun x => ("Id".data).isSuffixOf x)) ∧
    ∀ c ∈ fieldsComp, ("Id".data).isSuffixOf c = true →
      c ∈ fieldsComp.filter (fun x => ("Id".data).isSuffixOf x)) :=
  ⟨by decide,
    claim_C2 bodyComp ["raceId".data, "driverId".data] fieldsComp (by decide) (by decide)⟩

/-- C10: a body with no opening parenthesis makes `get_fields` raise (modelled
as `none`), and `get_foreign_keys` with it, rather than yielding an absent or
empty result. -/
theorem claim_C10 (body : List Char) (h : '(' ∉ body) :
    get_fields body = none ∧ get_foreign_keys body = none := by
  have hf : findChar '(' body = none := findChar_not_mem h
  constructor
  · unfold get_fields
    rw [hf]
    rfl
  · unfold get_foreign_keys get_fields
    rw [hf]
    rfl

/-- Witness for C10. -/
theorem claim_C10_witness :
    '(' ∉ ("abc".data) ∧
    (get_fields ("abc".data) = none ∧ get_foreign_keys ("abc".data) = none) :=
  ⟨by decide, claim_C10 ("abc".data) (by decide)⟩

/-- C9: when the body contains no match of the table-name pattern, `get_name`
yields the absent value (and, being total, never raises); likewise
`get_primary_key` when no primary-key clause matches. -/
theorem claim_C9 (body : List Char) :
    (hasNameB body = false → get_name body = none) ∧
    (hasPkB body = false → get_primary_key body = none) := by
  constructor
  · intro h
    unfold get_name
    rw [nameSearch_none_of_hasNameB body h]
    rfl
  · intro h
    unfold get_primary_key
    rw [pkSearch_none_of_hasPkB body h]
    rfl

/-- Witness for C9. -/
theorem claim_C9_witness :
    (hasNameB ("hello world".data) = false ∧ hasPkB ("hello world".data) = false) ∧
    (get_name ("hello world".data) = none ∧ get_primary_key ("hello world".data) = none) :=
  ⟨by decide,
    (claim_C9 ("hello world".data)).1 (by decide),
    (claim_C9 ("hello world".data)).2 (by decide)⟩

/-- C4: when every foreign-key column has an owner, `get_alters` returns
exactly one statement per foreign key, each of the exact `ALTER TABLE ...
ADD FOREIGN KEY ... REFERENCES ...` shape built by `mkAlter` from the owner
`primaryKeyOwners[col]`; with no foreign keys it returns the empty list. -/
theorem claim_C4 (body : List Char) (owners : List (List Char × List Char))
    (fs : List (List Char)) (hf : get_fields body = some fs)
    (hall : ∀ k ∈ fkOf fs (get_primary_key body), (dictLookup owners k).isSome = true) :
    get_alters body owners =
      some ((fkOf fs (get_primary_key body)).map
        (fun k => mkAlter (pyName body) k ((dictLookup owners k).getD []))) ∧
    (fkOf fs (get_primary_key body) = [] → get_alters body owners = some []) := by
  have hfk : get_foreign_keys body = some (fkOf fs (get_primary_key body)) := by
    unfold get_foreign_keys
    rw [hf]
    rfl
  have halt : get_alters body owners =
      optMap (fun k => (dictLookup owners k).map (fun o => mkAlter (pyName body) k o))
        (fkOf fs (get_primary_key body)) := by
    unfold get_alters
    rw [hfk]
  constructor
  · rw [halt,
      optMap_eq_map _ [] _ (fun k hk => by
        cases hx : dictLookup owners k with
        | none =>
          have hs := hall k hk
          rw [hx] at hs
          simp at hs
        | some o => rfl)]
    congr 1
    apply List.map_congr_left
    intro k hk
    cases hx : dictLookup owners k with
    | none =>
      have hs := hall k hk
      rw [hx] at hs
      simp at hs
    | some o => rfl
  · intro h0
    rw [halt, h0]
    rfl

/-- Witness for C4 on the drivers table with both keys resolvable. -/
theorem claim_C4_witness :
    (∀ k ∈ fkOf fieldsDrv (get_primary_key bodyDrv),
      (dictLookup ownersDrv k).isSome = true) ∧
    get_alters bodyDrv ownersDrv =
      some ((fkOf fieldsDrv (get_primary_key bodyDrv)).map
        (fun k => mkAlter (pyName bodyDrv) k ((dictLookup ownersDrv k).getD []))) :=
  ⟨by decide, (claim_C4 bodyDrv ownersDrv fieldsDrv (by decide) (by decide)).1⟩

/-- C5: given that field extraction succeeds, `get_alters` and
`get_converted_body` abort (model: `none`) exactly when some foreign-key
column has no entry in the owners mapping. -/
theorem claim_C5 (body : List Char) (owners : List (List Char × List Char))
    (fs : List (List Char)) (hf : get_fields body = some fs) :
    (get_alters body owners = none ↔
      ∃ k ∈ fkOf fs (get_primary_key body), dictLookup owners k = none) ∧
    (get_converted_body body owners = none ↔
      ∃ k ∈ fkOf fs (get_primary_key body), dictLookup owners k = none) := by
  have hfk : get_foreign_keys body = some (fkOf fs (get_primary_key body)) := by
    unfold get_foreign_keys
    rw [hf]
    rfl
  have halt : get_alters body owners =
      optMap (fun k => (dictLookup owners k).map (fun o => mkAlter (pyName body) k o))
        (fkOf fs (get_primary_key body)) := by
    unfold get_alters
    rw [hfk]
  constructor
  · rw [halt, optMap_none_iff]
    constructor
    · rintro ⟨k, hk, hnone⟩
      exact ⟨k, hk, Option.map_eq_none'.mp hnone⟩
    · rintro ⟨k, hk, hnone⟩
      exact ⟨k, hk, by rw [hnone]; rfl⟩
  · have hconv : get_converted_body body owners =
        (if (fkOf fs (get_primary_key body)).isEmpty then
          some (replaceAll body engMyISAM engInnoDB)
        else
          (optMap (fun k => (dictLookup owners k).map (fun o => fkClause k o))
              (fkOf fs (get_primary_key body))).map
            (fun secs => replaceAll (replaceAll body engMyISAM engInnoDB) footerS
              (secs.flatten ++ footerS))) := by
      unfold get_converted_body
      rw [hfk]
    rw [hconv]
    by_cases he : (fkOf fs (get_primary_key body)).isEmpty = true
    · have hnil : fkOf fs (get_primary_key body) = [] := by
        cases hx : fkOf fs (get_primary_key body) with
        | nil => rfl
        | cons a l =>
          rw [hx] at he
          simp [List.isEmpty] at he
      simp only [hnil, List.isEmpty_nil, if_true]
      constructor
      · intro hx
        cases hx
      · rintro ⟨k, hk, _⟩
        simp at hk
    · have hef : (fkOf fs (get_primary_key body)).isEmpty = false := Bool.eq_false_iff.mpr he
      simp only [hef, Bool.false_eq_true, if_false]
      rw [Option.map_eq_none', optMap_none_iff]
      constructor
      · rintro ⟨k, hk, hnone⟩
        exact ⟨k, hk, Option.map_eq_none'.mp hnone⟩
      · rintro ⟨k, hk, hnone⟩
        exact ⟨k, hk, by rw [hnone]; rfl⟩

/-- Witness for C5: with an empty owners mapping both operations fail, and a
foreign key without an entry exists. -/
theorem claim_C5_witness :
    get_fields bodyDrv = some fieldsDrv ∧
    ((get_alters bodyDrv [] = none ↔
      ∃ k ∈ fkOf fieldsDrv (get_primary_key bodyDrv),
        dictLookup ([] : List (List Char × List Char)) k = none) ∧
    (get_converted_body bodyDrv [] = none ↔
      ∃ k ∈ fkOf fieldsDrv (get_primary_key bodyDrv),
        dictLookup ([] : List (List Char × List Char)) k = none)) :=
  ⟨by decide, claim_C5 bodyDrv [] fieldsDrv (by decide)⟩

/-- C3: with `only_single_keys` enabled, a table whose primary key parsed as a
composite list contributes exactly the two statements `DROP PRIMARY KEY` then
`ADD COLUMN id ... PRIMARY KEY AUTO_INCREMENT`, in that order, appended after
all foreign-key alterations; a single-column or absent key contributes no such
pair. -/
theorem claim_C3 (body : List Char) (entries : List (Option (List Char) × List Char))
    (owners : List (List Char × List Char)) :
    (∀ ks, get_primary_key body = some (PyKey.multi ks) → 2 ≤ ks.length →
      tableCompositeAlters body = [dropStmt (pyName body), addIdStmt (pyName body)]) ∧
    (∀ k, get_primary_key body = some (PyKey.single k) → tableCompositeAlters body = []) ∧
    (get_primary_key body = none → tableCompositeAlters body = []) ∧
    (∀ baseLists, optMap (fun e => get_alters e.2 owners) entries = some baseLists →
      convertAlters entries owners true =
        some (baseLists.flatten ++ entries.flatMap (fun e => tableCompositeAlters e.2))) := by
  refine ⟨?_, ?_, ?_, ?_⟩
  · intro ks h _
    unfold tableCompositeAlters
    rw [h]
  · intro k h
    unfold tableCompositeAlters
    rw [h]
  · intro h
    unfold tableCompositeAlters
    rw [h]
  · intro baseLists h
    unfold convertAlters
    rw [h]
    rfl

/-- Witness for C3 on a concrete composite-key table. -/
theorem claim_C3_witness :
    (get_primary_key bodyComp = some (PyKey.multi ["raceId".data, "driverId".data]) ∧
      2 ≤ (["raceId".data, "driverId".data] : List (List Char)).length ∧
      optMap (fun e => get_alters e.2 ownersComp) entriesComp = some baseComp) ∧
    tableCompositeAlters bodyComp = [dropStmt (pyName bodyComp), addIdStmt (pyName bodyComp)] ∧
    convertAlters entriesComp ownersComp true =
      some (baseComp.flatten ++ entriesComp.flatMap (fun e => tableCompositeAlters e.2)) :=
  ⟨by decide,
    (claim_C3 bodyComp entriesComp ownersComp).1 ["raceId".data, "driverId".data]
      (by decide) (by decide),
    (claim_C3 bodyComp entriesComp ownersComp).2.2.2 baseComp (by decide)⟩

/-- C7 fails as stated: two tables may declare the same single-column primary
key name, and then the mapping holds the second table's name while the first
table also has that single-column key.  Concretely, in `sqlCex7` the first
table `a` has single primary key `xId`, yet the mapping sends `xId` to `b`. -/
theorem claim_C7_counterexample :
    (findCreates sqlCex7).head? = some bodyCex7 ∧
    get_primary_key bodyCex7 = some (PyKey.single ("xId".data)) ∧
    pyName bodyCex7 = "a".data ∧
    dictLookup (buildOwners (findCreates sqlCex7)) ("xId".data) = some ("b".data) ∧
    ("b".data : List Char) ≠ "a".data := by
  decide

/-- C7 (amended): the `primaryKeyOwners` mapping sends each key `k` to the
name of the last table in input order whose primary key is exactly the single
column `k`; in particular `k` has an entry exactly when some table declares it
as a single-column primary key, and tables with an absent or composite key
contribute nothing.  When single-column key names are distinct across tables,
each maps to its own table's name. -/
theorem claim_C7_amended (bodies : List (List Char)) (k : List Char) :
    dictLookup (buildOwners bodies) k =
      (bodies.reverse.find?
        (fun b => decide (get_primary_key b = some (PyKey.single k)))).map pyName ∧
    ((dictLookup (buildOwners bodies) k).isSome = true ↔
      ∃ b ∈ bodies, get_primary_key b = some (PyKey.single k)) := by
  have h := buildOwners_lookup k bodies []
  have h1 : dictLookup (buildOwners bodies) k =
      (bodies.reverse.find?
        (fun b => decide (get_primary_key b = some (PyKey.single k)))).map pyName := by
    rw [show buildOwners bodies = bodies.foldl ownerStep [] from rfl, h]
    cases bodies.reverse.find? (fun b => decide (get_primary_key b = some (PyKey.single k))) with
    | some b => rfl
    | none => rfl
  refine ⟨h1, ?_⟩
  rw [h1]
  rw [Option.isSome_map']
  rw [List.find?_isSome]
  constructor
  · rintro ⟨b, hb, hp⟩
    exact ⟨b, List.mem_reverse.mp hb, of_decide_eq_true hp⟩
  · rintro ⟨b, hb, hp⟩
    exact ⟨b, List.mem_reverse.mpr hb, decide_eq_true hp⟩

/-- C8 fails as stated: replacing the malformed literal can itself recreate
the literal when an input occurrence is immediately followed by a second copy
of the `DEFAULT` part, as in `sqlCex8`. -/
theorem claim_C8_counterexample :
    convert_core sqlCex8 true = some outCex8 ∧ occursB dateBad outCex8 = true := by
  decide

/-- Occurrences of the date literal pass through a leading newline. -/
theorem occursB_newline_peel {x : List Char} (h : occursB dateBad ('\n' :: x) = true) :
    occursB dateBad x = true := by
  rw [occursB_cons_eq] at h
  rcases (Bool.or_eq_true _ _).mp h with hp | ho
  · exfalso
    rcases ipo_cons_elim hp with hnil | ⟨hh, _⟩
    · exact absurd hnil (by decide)
    · rw [show dateBad.head? = some 'd' from by decide] at hh
      exact absurd (Option.some.injEq _ _ |>.mp hh) (by decide)
  · exact ho

/-- C8 (amended): the output of `convert` contains no occurrence of the
malformed date literal, provided the input contains no occurrence of the
literal immediately followed by a second copy of its `DEFAULT` part (the only
way the left-to-right replacement can recreate it) and the generated
alteration block does not itself contain the literal (possible only through
pathological table or column names). -/
theorem claim_C8_amended (sql out : List Char)
    (h1 : occursB (dateBad ++ dateTail) sql = false)
    (h2 : occursB dateBad (joinNL ((altersOf sql true).getD [])) = false)
    (hc : convert_core sql true = some out) :
    occursB dateBad out = false := by
  unfold convert_core at hc
  cases ha : altersOf sql true with
  | none =>
    rw [ha] at hc
    cases hc
  | some alters =>
    rw [ha] at hc
    have hout : out = transformText sql ++ ['\n', '\n', '\n'] ++ joinNL alters := by
      cases hc
      rfl
    cases hb : occursB dateBad out with
    | false => rfl
    | true =>
      exfalso
      rw [hout, List.append_assoc] at hb
      rcases occursB_append_no_straddle
          (fun c hc2 hmem => by
            rw [show (['\n', '\n', '\n'] ++ joinNL alters).head? = some '\n' from rfl] at hc2
            rw [← Option.some.injEq _ _ |>.mp hc2] at hmem
            exact absurd hmem (by decide))
          hb with hL | hR
      · have he := replaceAll_engine_occ (by
          unfold transformText at hL
          exact hL)
        have hd := replaceAll_date_occ he
        rw [h1] at hd
        cases hd
      · have hx : occursB dateBad (joinNL alters) = true :=
          occursB_newline_peel (occursB_newline_peel (occursB_newline_peel hR))
        rw [ha] at h2
        have h2x : occursB dateBad (joinNL alters) = false := h2
        rw [hx] at h2x
        cases h2x

/-- Witness for the amended C8 on a clean one-table dump. -/
theorem claim_C8_amended_witness :
    (occursB (dateBad ++ dateTail) sqlW8 = false ∧
      occursB dateBad (joinNL ((altersOf sqlW8 true).getD [])) = false ∧
      convert_core sqlW8 true = some outW8) ∧
    occursB dateBad outW8 = false :=
  ⟨⟨by decide, by decide, by decide⟩,
    claim_C8_amended sqlW8 outW8 (by decide) (by decide) (by decide)⟩

/-- Unfolding equation for `get_converted_body`. -/
theorem get_converted_body_eq (body : List Char) (owners : List (List Char × List Char)) :
    get_converted_body body owners =
      match get_foreign_keys body with
      | none => none
      | some fks =>
        if fks.isEmpty then some (replaceAll body engMyISAM engInnoDB)
        else
          (optMap (fun k => (dictLookup owners k).map (fun o => fkClause k o)) fks).map
            (fun secs => replaceAll (replaceAll body engMyISAM engInnoDB) footerS
              (secs.flatten ++ footerS)) := rfl

/-- All three extractions only look at the shared prefix when the suffixes
are backtick-free (and do not supply a closing parenthesis to a pending
primary-key match). -/
theorem extract_congr (B t1 t2 : List Char) (ht1 : '`' ∉ t1) (ht2 : '`' ∉ t2)
    (hp1 : t1.head? ≠ some ')') (hp2 : t2.head? ≠ some ')') :
    get_name (B ++ t1) = get_name (B ++ t2) ∧
    get_primary_key (B ++ t1) = get_primary_key (B ++ t2) ∧
    ((∃ i, findChar '(' B = some i) → get_fields (B ++ t1) = get_fields (B ++ t2)) := by
  refine ⟨?_, ?_, ?_⟩
  · unfold get_name
    rw [nameSearch_ext ht1, nameSearch_ext ht2]
  · unfold get_primary_key
    rw [pkSearch_ext ht1 hp1, pkSearch_ext ht2 hp2]
  · rintro ⟨i, hi⟩
    have hiB := findChar_bound hi
    unfold get_fields
    rw [findChar_append_left t1 hi, findChar_append_left t2 hi]
    simp only [Option.map_some']
    have hd1 : (B ++ t1).drop i = B.drop i ++ t1 := by
      rw [List.drop_append_eq_append_drop, show i - B.length = 0 from by omega, List.drop_zero]
    have hd2 : (B ++ t2).drop i = B.drop i ++ t2 := by
      rw [List.drop_append_eq_append_drop, show i - B.length = 0 from by omega, List.drop_zero]
    rw [hd1, hd2, findTicks_ext ht1, findTicks_ext ht2]

/-- C6 fails as stated: when the footer marker `"\n) ENGINE"` occurs before
the first parenthesis, the spliced foreign-key clauses move the start of the
field scan, and the re-extracted field set gains entries (here `xx`). -/
theorem claim_C6_counterexample :
    get_converted_body bodyCex6 ownersCex6 = some convCex6 ∧
    get_fields bodyCex6 = some [("aId".data)] ∧
    get_fields convCex6 = some [("xx".data), ("aId".data)] ∧
    ("xx".data) ∈ [("xx".data), ("aId".data)] ∧
    ("xx".data) ∉ [("aId".data)] := by
  decide

/-- C6 (amended): for a body of the shape `B ++ "\n) ENGINE=MyISAM;"` on
which `get_converted_body` succeeds, re-extraction from the converted body
yields the same name, primary key and fields, provided the engine marker
`ENGINE=MyISAM` occurs only in that trailing footer, the footer marker
`"\n) ENGINE"` does not occur inside `B`, and every owner name is
backtick-free. -/
theorem claim_C6_amended (B : List Char) (owners : List (List Char × List Char))
    (conv : List Char)
    (hR1 : ∀ i, i < B.length + 3 → engMyISAM.isPrefixOf ((B ++ footMy).drop i) = false)
    (hR2 : ∀ i, i < B.length → footerS.isPrefixOf ((B ++ footInno).drop i) = false)
    (hO : ∀ p ∈ owners, '`' ∉ p.2)
    (hc : get_converted_body (B ++ footMy) owners = some conv) :
    get_name conv = get_name (B ++ footMy) ∧
    get_primary_key conv = get_primary_key (B ++ footMy) ∧
    get_fields conv = get_fields (B ++ footMy) := by
  have hdecomp : B ++ footMy = (B ++ ("\n) ".data)) ++ engMyISAM ++ [';'] := by
    rw [show footMy = ("\n) ".data) ++ (engMyISAM ++ [';']) from by decide]
    simp [List.append_assoc]
  have hinno : footInno = ("\n) ".data) ++ (engInnoDB ++ [';']) := by decide
  have htemp : replaceAll (B ++ footMy) engMyISAM engInnoDB = B ++ footInno := by
    rw [hdecomp,
      replaceAll_split (p := engMyISAM) engInnoDB [';'] (by decide) (B ++ ("\n) ".data))
        (fun i hi => by
          rw [← hdecomp]
          exact hR1 i (by simpa using hi)),
      show replaceAll [';'] engMyISAM engInnoDB = [';'] from by decide, hinno]
    simp [List.append_assoc]
  cases hfk : get_foreign_keys (B ++ footMy) with
  | none =>
    rw [get_converted_body_eq, hfk] at hc
    exact Option.noConfusion hc
  | some fks =>
    rw [get_converted_body_eq, hfk] at hc
    have hc2 : (if fks.isEmpty = true then some (replaceAll (B ++ footMy) engMyISAM engInnoDB)
        else
          Option.map
            (fun secs => replaceAll (replaceAll (B ++ footMy) engMyISAM engInnoDB) footerS
              (secs.flatten ++ footerS))
            (optMap (fun k => Option.map (fun o => fkClause k o) (dictLookup owners k)) fks))
        = some conv := hc
    clear hc
    have hfields : ∃ fs, get_fields (B ++ footMy) = some fs ∧
        fks = fkOf fs (get_primary_key (B ++ footMy)) := by
      unfold get_foreign_keys at hfk
      cases hgf : get_fields (B ++ footMy) with
      | none =>
        rw [hgf] at hfk
        exact Option.noConfusion hfk
      | some fs =>
        rw [hgf] at hfk
        simp only [Option.map_some'] at hfk
        exact ⟨fs, rfl, (Option.some.injEq _ _ |>.mp hfk).symm⟩
    obtain ⟨fs, hgf, hfkdef⟩ := hfields
    have hpar : ∃ i, findChar '(' (B ++ footMy) = some i := by
      unfold get_fields at hgf
      cases hfc : findChar '(' (B ++ footMy) with
      | none =>
        rw [hfc] at hgf
        exact Option.noConfusion hgf
      | some i => exact ⟨i, rfl⟩
    obtain ⟨i, hfc⟩ := hpar
    have hfcB : findChar '(' B = some i := by
      have hx := findChar_ext (show '(' ∉ footMy from by decide) B
      rw [hfc] at hx
      exact hx.symm
    have hfs_tick : ∀ x ∈ fs, '`' ∉ x := by
      intro x hx
      unfold get_fields at hgf
      rw [hfc] at hgf
      simp only [Option.map_some'] at hgf
      have hfs := Option.some.injEq _ _ |>.mp hgf
      rw [← hfs] at hx
      have hx2 := pyListSet_subset hx
      rcases List.mem_map.mp hx2 with ⟨m, _, hm⟩
      rw [← hm]
      exact not_mem_replaceAll_single '`' m
    have hfks_tick : ∀ k ∈ fks, '`' ∉ k := by
      intro k hk
      rw [hfkdef] at hk
      unfold fkOf at hk
      exact hfs_tick k (List.mem_filter.mp (List.mem_filter.mp hk).1).1
    by_cases hemp : fks.isEmpty = true
    · rw [if_pos hemp] at hc2
      have hconv : conv = B ++ footInno := by
        have hx := Option.some.injEq _ _ |>.mp hc2
        rw [← hx, htemp]
      obtain ⟨hn, hp, hf⟩ := extract_congr B footMy footInno (by decide) (by decide)
        (by decide) (by decide)
      rw [hconv]
      exact ⟨hn.symm, hp.symm, (hf ⟨i, hfcB⟩).symm⟩
    · rw [if_neg hemp] at hc2
      cases hsec : optMap (fun k => (dictLookup owners k).map (fun o => fkClause k o)) fks with
      | none =>
        rw [hsec] at hc2
        exact Option.noConfusion hc2
      | some secs =>
        rw [hsec] at hc2
        simp only [Option.map_some'] at hc2
        have hconvEq : conv = replaceAll (B ++ footInno) footerS (secs.flatten ++ footerS) := by
          have hx := Option.some.injEq _ _ |>.mp hc2
          rw [← hx, htemp]
        have hfoot : footInno = footerS ++ ("=InnoDB;".data) := by decide
        have hsplice : replaceAll (B ++ footInno) footerS (secs.flatten ++ footerS)
            = B ++ (secs.flatten ++ footInno) := by
          rw [show B ++ footInno = B ++ footerS ++ ("=InnoDB;".data) from by
            rw [hfoot]
            simp [List.append_assoc]]
          rw [replaceAll_split (p := footerS) (secs.flatten ++ footerS) ("=InnoDB;".data)
            (by decide) B (fun i2 hi2 => by
              rw [show B ++ footerS ++ ("=InnoDB;".data) = B ++ footInno from by
                rw [hfoot]
                simp [List.append_assoc]]
              exact hR2 i2 hi2)]
          rw [replaceAll_no_occur _ ("=InnoDB;".data) (by decide)]
          rw [hfoot]
          simp [List.append_assoc]
        have hsec_tick : ∀ x ∈ secs, '`' ∉ x := by
          intro x hx
          rcases optMap_mem _ hsec x hx with ⟨k, hk, hfk1⟩
          rcases Option.map_eq_some'.mp hfk1 with ⟨o, ho, hs1⟩
          rw [← hs1]
          intro hmem
          unfold fkClause at hmem
          have hkt := hfks_tick k hk
          have hot : '`' ∉ o := by
            rcases dictLookup_mem ho with ⟨p, hp, hpv⟩
            rw [← hpv]
            exact hO p hp
          rcases List.mem_append.mp hmem with hmem | hmem
          · rcases List.mem_append.mp hmem with hmem | hmem
            · rcases List.mem_append.mp hmem with hmem | hmem
              · rcases List.mem_append.mp hmem with hmem | hmem
                · rcases List.mem_append.mp hmem with hmem | hmem
                  · rcases List.mem_append.mp hmem with hmem | hmem
                    · exact absurd hmem (by decide)
                    · exact hkt hmem
                  · exact absurd hmem (by decide)
                · exact hot hmem
              · exact absurd hmem (by decide)
            · exact hkt hmem
          · exact absurd hmem (by decide)
        have ht2 : '`' ∉ secs.flatten ++ footInno := by
          intro hmem
          rcases List.mem_append.mp hmem with hmem | hmem
          · exact not_mem_flatten hsec_tick hmem
          · exact absurd hmem (by decide)
        have hhead : (secs.flatten ++ footInno).head? ≠ some ')' := by
          have hlen := optMap_length _ hsec
          cases secs with
          | nil =>
            have hfksnil : fks = [] := by
              cases fks with
              | nil => rfl
              | cons a l => simp at hlen
            rw [hfksnil] at hemp
            exact absurd rfl hemp
          | cons s1 srest =>
            rcases optMap_mem _ hsec s1 (List.mem_cons_self _ _) with ⟨k, hk, hfk1⟩
            rcases Option.map_eq_some'.mp hfk1 with ⟨o, ho, hs1⟩
            rw [show (s1 :: srest).flatten ++ footInno
                = s1 ++ (srest.flatten ++ footInno) from by
              simp [List.flatten_cons, List.append_assoc]]
            rw [← hs1]
            intro habs
            have : (fkClause k o ++ (srest.flatten ++ footInno)).head? = some ',' := rfl
            rw [this] at habs
            exact absurd (Option.some.injEq _ _ |>.mp habs) (by decide)
        obtain ⟨hn, hp, hf⟩ := extract_congr B footMy (secs.flatten ++ footInno)
          (by decide) ht2 (by decide) hhead
        rw [hconvEq, hsplice]
        exact ⟨hn.symm, hp.symm, (hf ⟨i, hfcB⟩).symm⟩

/-- Witness for the amended C6 on a concrete well-formed table. -/
theorem claim_C6_amended_witness :
    ((∀ i, i < bW6.length + 3 → engMyISAM.isPrefixOf ((bW6 ++ footMy).drop i) = false) ∧
      (∀ i, i < bW6.length → footerS.isPrefixOf ((bW6 ++ footInno).drop i) = false) ∧
      (∀ p ∈ ownersW6, '`' ∉ p.2) ∧
      get_converted_body (bW6 ++ footMy) ownersW6 = some convW6) ∧
    (get_name convW6 = get_name (bW6 ++ footMy) ∧
      get_primary_key convW6 = get_primary_key (bW6 ++ footMy) ∧
      get_fields convW6 = get_fields (bW6 ++ footMy)) :=
  ⟨⟨by decide, by decide, by decide, by decide⟩,
    claim_C6_amended bW6 ownersW6 convW6 (by decide) (by decide) (by decide) (by decide)⟩
